import Mathlib

/-!
Verification of the URL-Navigator bookmark core: the tree data model and its
path-addressed mutations (src/models/data_manager.py), the search services
(src/models/data_manager.py, src/services/search_service.py), the JSON codec
helpers (src/utils/json_utils.py) and the import/export engine
(src/services/import_export.py).

The Python data is a dict-of-dicts; a node is either
`{"type": "url", "url": ..., "name": ..., "icon": ...}` or
`{"type": "folder", "children": {...}}` (a folder acquires an extra
`"name"` key after `update_item`).  We embed dicts as ordered association
lists (`List (String × key)`), which matches Python dict semantics for the
operations used by the code: key lookup, membership, `pop` (remove, keeping
the order of the remaining entries), and assignment (overwrite in place if
the key exists, append at the end otherwise).
-/

namespace UrlNav

/-- A bookmark-tree node: either a URL leaf (`type == "url"`, with its
`url`, `name` and `icon` fields) or a folder (`type == "folder"`, with an
ordered `children` mapping).  `fname` models the optional `"name"` key that
`DataManager.update_item` writes onto folder dicts; freshly created folders
do not carry it. -/
inductive Node where
  | url (url name icon : String)
  | folder (fname : Option String) (children : List (String × Node))
deriving Repr

abbrev Dict := List (String × Node)

/-- Python `parent[name]` / `name in parent`: first-occurrence lookup in an
association list (a Python dict has unique keys, so first = only). -/
def dlookup : Dict → String → Option Node
  | [], _ => none
  | (k, v) :: tl, key => if k = key then some v else dlookup tl key

/-- Python `parent.pop(name)` (the removal part): drop the entry, keep the
order of the others. -/
def dremove : Dict → String → Dict
  | [], _ => []
  | (k, v) :: tl, key => if k = key then tl else (k, v) :: dremove tl key

/-- Python `parent[name] = item`: overwrite in place if present, append at
the end otherwise. -/
def dset : Dict → String → Node → Dict
  | [], key, v => [(key, v)]
  | (k, w) :: tl, key, v =>
      if k = key then (k, v) :: tl else (k, w) :: dset tl key v

/-- `DataManager.get_item_at_path`: walk the path; each segment must name a
child of `"folder"` type, and the result is the children mapping reached
(the root mapping for the empty path). -/
def getItemAtPath (data : Dict) : List String → Option Dict
  | [] => some data
  | s :: rest =>
      match dlookup data s with
      | some (Node.folder _ ch) => getItemAtPath ch rest
      | _ => none

/-- Apply `f` to the container addressed by `path` (functional image of the
Python code mutating, through a reference obtained from
`get_item_at_path`, the children dict sitting at that path).  Off a
resolvable path this leaves the tree unchanged; the operations below only
use it on paths they have already resolved. -/
def modifyAt (f : Dict → Dict) : Dict → List String → Dict
  | d, [] => f d
  | d, s :: rest =>
      match dlookup d s with
      | some (Node.folder nm ch) => dset d s (Node.folder nm (modifyAt f ch rest))
      | _ => d

/-- The failure branches of `DataManager.move_item`, one per distinct
log-message branch in the source (`move_item` itself only returns `False`;
the branch taken is observable through the message it logs). -/
inductive MoveErr where
  | srcPathMissing | dstPathMissing | srcItemMissing | nameConflict | cycle
deriving Repr, DecidableEq

/-- The subpath test of `move_item`: `len(target) >= len(full)` and
`full[i] == target[i]` for every `i < len(full)`. -/
def subpathChk (full target : List String) : Bool :=
  decide (full.length ≤ target.length) && decide (target.take full.length = full)

/-- `DataManager.move_item(source_path, source_name, target_path)`.
Returns the failure branch taken (`none` on success) together with the
resulting tree; every check precedes the mutation, so all failure branches
return the input tree.  On success the item is popped from the source
container and assigned into the target container (appended at its end,
since the conflict check guarantees the key is absent there). -/
def moveItem (data : Dict) (sourcePath : List String) (sourceName : String)
    (targetPath : List String) : Option MoveErr × Dict :=
  match getItemAtPath data sourcePath with
  | none => (some .srcPathMissing, data)
  | some sourceParent =>
    match getItemAtPath data targetPath with
    | none => (some .dstPathMissing, data)
    | some targetParent =>
      match dlookup sourceParent sourceName with
      | none => (some .srcItemMissing, data)
      | some item =>
        if (dlookup targetParent sourceName).isSome then
          (some .nameConflict, data)
        else
          let isFolder := match item with | .folder _ _ => true | _ => false
          if isFolder && subpathChk (sourcePath ++ [sourceName]) targetPath then
            (some .cycle, data)
          else
            (none,
              modifyAt (fun d => dset d sourceName item)
                (modifyAt (fun d => dremove d sourceName) data sourcePath)
                targetPath)

/-- Path resolution composes along path concatenation. -/
theorem getItemAtPath_append (data : Dict) (a b : List String) :
    getItemAtPath data (a ++ b) = (getItemAtPath data a).bind (fun d => getItemAtPath d b) := by
  induction a generalizing data with
  | nil => simp [getItemAtPath]
  | cons s rest ih =>
      simp only [List.cons_append, getItemAtPath]
      cases h : dlookup data s with
      | none => simp
      | some node =>
          cases node with
          | url u nm ic => simp
          | folder nm ch => simpa using ih ch

/-- The elementwise subpath loop of `move_item` is exactly the list-prefix
relation. -/
theorem subpathChk_iff (full t : List String) :
    subpathChk full t = true ↔ full <+: t := by
  unfold subpathChk
  rw [Bool.and_eq_true, decide_eq_true_iff, decide_eq_true_iff]
  constructor
  · rintro ⟨hlen, htake⟩
    exact htake ▸ List.take_prefix _ _
  · intro h
    exact ⟨h.length_le, (List.prefix_iff_eq_take.mp h).symm⟩

/-- If the destination resolves and extends `p ++ [n]`, the item at `n`
under `p` must be a folder (path resolution cannot descend through a URL
leaf). -/
theorem folder_of_prefix_resolvable (data : Dict) (p : List String) (n : String)
    (d : List String) (sp tp : Dict) (item : Node)
    (hsp : getItemAtPath data p = some sp)
    (hn : dlookup sp n = some item)
    (htp : getItemAtPath data d = some tp)
    (hpre : (p ++ [n]) <+: d) :
    ∃ nm ch, item = Node.folder nm ch := by
  obtain ⟨rest, hrest⟩ := hpre
  rw [← hrest, getItemAtPath_append, getItemAtPath_append, hsp] at htp
  cases item with
  | url u nm ic =>
      exfalso
      simp [getItemAtPath, hn] at htp
  | folder nm ch => exact ⟨nm, ch, rfl⟩

def treeAA : Dict := [("A", Node.folder none [("A", Node.folder none [])])]

def treeAB : Dict := [("A", Node.folder none [("B", Node.folder none [])])]

/-- C1 (counterexample): in the tree `{A: {A: {}}}`, moving child `A` of the
root to destination `["A"]` has a resolvable destination equal to
`p + [n]`, yet `move_item` fails with the name-conflict branch (checked
before the cycle check), not with `CycleError` as the claim requires. -/
theorem c1_counterexample :
    (["A"] : List String) = [] ++ ["A"] ∧
    getItemAtPath treeAA ["A"] = some [("A", Node.folder none [])] ∧
    (moveItem treeAA [] "A" ["A"]).1 = some MoveErr.nameConflict ∧
    (moveItem treeAA [] "A" ["A"]).1 ≠ some MoveErr.cycle := by
  refine ⟨rfl, rfl, rfl, by decide⟩

/-- C1 (amended): with resolvable source parent `p`, a child `n` under it
and resolvable destination `d`, `move_item` fails with the cycle branch iff
`d` equals or strictly extends `p + [n]` AND no sibling of name `n` already
exists at the destination (otherwise the name-conflict branch fires first);
and every failure leaves the tree exactly as it was. -/
theorem c1_move_cycle_amended (data : Dict) (p : List String) (n : String)
    (d : List String) (sp tp : Dict) (item : Node)
    (hsp : getItemAtPath data p = some sp)
    (hn : dlookup sp n = some item)
    (htp : getItemAtPath data d = some tp) :
    (((moveItem data p n d).1 = some MoveErr.cycle) ↔
      ((p ++ [n]) <+: d ∧ dlookup tp n = none)) ∧
    (∀ e, (moveItem data p n d).1 = some e → (moveItem data p n d).2 = data) := by
  cases item with
  | url u un ui =>
      have hnofold : ¬ (p ++ [n]) <+: d := by
        intro hpre
        obtain ⟨nm, ch, h⟩ :=
          folder_of_prefix_resolvable data p n d sp tp _ hsp hn htp hpre
        cases h
      cases hcon : dlookup tp n with
      | some v =>
          have hres : moveItem data p n d = (some MoveErr.nameConflict, data) := by
            unfold moveItem
            simp [hsp, htp, hn, hcon]
          rw [hres]
          constructor
          · constructor
            · intro h
              cases h
            · rintro ⟨-, hnone⟩
              cases hnone
          · intro e _
            rfl
      | none =>
          have hres : (moveItem data p n d).1 = none := by
            unfold moveItem
            simp [hsp, htp, hn, hcon]
          refine ⟨⟨fun h => ?_, fun ⟨h, _⟩ => absurd h hnofold⟩, fun e he => ?_⟩
          · rw [hres] at h; cases h
          · rw [hres] at he; cases he
  | folder fnm ch =>
      cases hcon : dlookup tp n with
      | some v =>
          have hres : moveItem data p n d = (some MoveErr.nameConflict, data) := by
            unfold moveItem
            simp [hsp, htp, hn, hcon]
          rw [hres]
          constructor
          · constructor
            · intro h
              cases h
            · rintro ⟨-, hnone⟩
              cases hnone
          · intro e _
            rfl
      | none =>
          by_cases hpre : (p ++ [n]) <+: d
          · have hsub : subpathChk (p ++ [n]) d = true := (subpathChk_iff _ _).mpr hpre
            have hres : moveItem data p n d = (some MoveErr.cycle, data) := by
              unfold moveItem
              simp [hsp, htp, hn, hcon, hsub]
            rw [hres]
            exact ⟨⟨fun _ => ⟨hpre, rfl⟩, fun _ => rfl⟩, fun e _ => rfl⟩
          · have hsub : subpathChk (p ++ [n]) d = false := by
              rw [← Bool.not_eq_true, subpathChk_iff]
              exact hpre
            have hres : (moveItem data p n d).1 = none := by
              unfold moveItem
              simp [hsp, htp, hn, hcon, hsub]
            refine ⟨⟨fun h => ?_, fun ⟨h, _⟩ => absurd h hpre⟩, fun e he => ?_⟩
            · rw [hres] at h; cases h
            · rw [hres] at he; cases he

/-- C1 (witness): in the tree `{A: {B: {}}}`, moving `A` beneath its own
child `B` takes the cycle branch and leaves the tree unchanged on every
failure, as `c1_move_cycle_amended` states. -/
theorem c1_witness :
    (((moveItem treeAB [] "A" ["A", "B"]).1 = some MoveErr.cycle) ↔
      ((([] : List String) ++ ["A"]) <+: ["A", "B"] ∧
        dlookup ([] : Dict) "A" = none)) ∧
    (∀ e, (moveItem treeAB [] "A" ["A", "B"]).1 = some e →
      (moveItem treeAB [] "A" ["A", "B"]).2 = treeAB) :=
  c1_move_cycle_amended treeAB [] "A" ["A", "B"]
    [("A", Node.folder none [("B", Node.folder none [])])]
    [] (Node.folder none [("B", Node.folder none [])])
    (by simp [treeAB, getItemAtPath, dlookup])
    (by simp [treeAB, dlookup])
    (by simp [treeAB, getItemAtPath, dlookup])

/-- C9 (counterexample): in the tree `{A: {}}`, the self-move
`move_item([], "A", [])` does not succeed: it takes the name-conflict
branch (the moved name is necessarily present in the destination, which is
the source container itself). -/
theorem c9_counterexample :
    (moveItem [("A", Node.folder none [])] [] "A" []).1 = some MoveErr.nameConflict ∧
    (moveItem [("A", Node.folder none [])] [] "A" []).2 = [("A", Node.folder none [])] := by
  exact ⟨rfl, rfl⟩

/-- C9 (amended): a move of a node onto itself (`src == dst`) is rejected
by the name-conflict check and leaves the tree unchanged (a no-op failure,
not a no-op success). -/
theorem c9_self_move_amended (data : Dict) (p : List String) (n : String) (sp : Dict)
    (hsp : getItemAtPath data p = some sp)
    (hn : (dlookup sp n).isSome) :
    moveItem data p n p = (some MoveErr.nameConflict, data) := by
  unfold moveItem
  cases hitem : dlookup sp n with
  | none => rw [hitem] at hn; cases hn
  | some item => simp [hsp, hitem]

/-- C9 (witness): the amended statement at the concrete tree `{A: {}}`. -/
theorem c9_witness :
    moveItem [("A", Node.folder none [])] [] "A" [] =
      (some MoveErr.nameConflict, [("A", Node.folder none [])]) :=
  c9_self_move_amended [("A", Node.folder none [])] [] "A"
    [("A", Node.folder none [])] rfl (by decide)

/-- The filesystem- and platform-dependent primitives used by
`DataManager._standardize_icon_path` (`os.path.isabs/exists/normpath/
basename/join`, `resource_path`, the user icon cache directory).  They are
abstracted as an environment because the Python code delegates to them
opaquely. -/
structure FsEnv where
  isAbs : String → Bool
  pathExists : String → Bool
  normpath : String → String
  basename : String → String
  resourcePath : String → String
  userIconCacheDir : String
  joinPath : String → String → String

/-- `DataManager._standardize_icon_path`: empty icon → default globe icon;
`resources/`-prefixed paths pass through; existing absolute paths are
normalized; otherwise the basename is searched in the bundled resources and
then in the user icon cache, falling back to the default globe icon. -/
def standardizeIconPath (env : FsEnv) (iconPath : String) : String :=
  if iconPath = "" then "resources/icons/globe.png"
  else if iconPath.startsWith "resources/" then iconPath
  else if env.isAbs iconPath && env.pathExists iconPath then env.normpath iconPath
  else
    let filename := env.basename iconPath
    if filename = "" then "resources/icons/globe.png"
    else
      let standard := "resources/icons/" ++ filename
      if env.pathExists (env.resourcePath standard) then standard
      else
        let cachePath := env.joinPath env.userIconCacheDir filename
        if env.pathExists cachePath then env.normpath cachePath
        else "resources/icons/globe.png"

/-- The failure branches of `DataManager.update_item` (one per log-message
branch). -/
inductive UpdErr where
  | pathMissing | itemMissing | nameConflict
deriving Repr, DecidableEq

/-- The `item_data` dict passed to `update_item`, as read by the code:
`item_data.get("url", old)` and `item_data.get("icon", old)`. -/
structure UpdData where
  url : Option String
  icon : Option String

/-- `DataManager.update_item(path, old_name, new_name, item_data)`: resolve
the parent, require `old_name` present, reject a conflicting `new_name`
(when renaming), pop the old entry, rewrite its fields (URL items: `url`
defaulting to the prior value, `name := new_name`, `icon` re-standardized
from the supplied or prior value; folders: just `name := new_name`) and
re-insert it under `new_name` (at the end, since the old entry was
popped). -/
def updateItem (env : FsEnv) (data : Dict) (path : List String)
    (oldName newName : String) (upd : UpdData) : Option UpdErr × Dict :=
  match getItemAtPath data path with
  | none => (some .pathMissing, data)
  | some parent =>
    match dlookup parent oldName with
    | none => (some .itemMissing, data)
    | some item =>
      if decide (oldName ≠ newName) && (dlookup parent newName).isSome then
        (some .nameConflict, data)
      else
        let newItem := match item with
          | Node.url u _ ic =>
              Node.url (upd.url.getD u) newName (standardizeIconPath env (upd.icon.getD ic))
          | Node.folder _ ch => Node.folder (some newName) ch
        (none, modifyAt (fun d => dset (dremove d oldName) newName newItem) data path)

/-- Setting a key then looking it up yields the new value. -/
theorem dlookup_dset_self (d : Dict) (k : String) (v : Node) :
    dlookup (dset d k v) k = some v := by
  induction d with
  | nil => simp [dset, dlookup]
  | cons hd tl ih =>
      obtain ⟨k2, v2⟩ := hd
      by_cases h : k2 = k
      · simp [dset, dlookup, h]
      · simp [dset, dlookup, h, ih]

/-- Modifying the container at a resolvable path is visible as exactly `f`
applied to that container. -/
theorem getItemAtPath_modifyAt (f : Dict → Dict) (data : Dict)
    (path : List String) (parent : Dict)
    (hp : getItemAtPath data path = some parent) :
    getItemAtPath (modifyAt f data path) path = some (f parent) := by
  induction path generalizing data with
  | nil =>
      cases hp
      rfl
  | cons s rest ih =>
      unfold getItemAtPath at hp
      cases h : dlookup data s with
      | none => rw [h] at hp; cases hp
      | some node =>
          cases node with
          | url u nm ic => rw [h] at hp; cases hp
          | folder nm ch =>
              rw [h] at hp
              unfold modifyAt
              rw [h]
              unfold getItemAtPath
              rw [dlookup_dset_self]
              exact ih ch hp

def trivEnv : FsEnv :=
  { isAbs := fun _ => false, pathExists := fun _ => false, normpath := id,
    basename := id, resourcePath := id, userIconCacheDir := "",
    joinPath := fun a b => a ++ "/" ++ b }

/-- C5 (counterexample): updating the bookmark `B` (whose stored icon is
the empty string) with an `item_data` that does not supply `icon` does not
retain the prior icon value: `_standardize_icon_path` rewrites the empty
icon to the default globe icon.  (The node model also has no `modified`
timestamp at all, so no timestamp is refreshed.) -/
theorem c5_counterexample :
    (updateItem trivEnv [("B", Node.url "u" "B" "")] [] "B" "B"
        { url := none, icon := none }).1 = none ∧
    (updateItem trivEnv [("B", Node.url "u" "B" "")] [] "B" "B"
        { url := none, icon := none }).2 =
      [("B", Node.url "u" "B" "resources/icons/globe.png")] ∧
    "resources/icons/globe.png" ≠ "" := by
  refine ⟨rfl, ?_, by decide⟩
  simp [updateItem, getItemAtPath, dlookup, modifyAt, dremove, dset,
    standardizeIconPath]

/-- C5 (amended): a successful `update_item` on a URL item keeps the prior
`url` when the update does not supply one, sets `name := new_name`, and
sets `icon` to the *re-standardized* supplied-or-prior icon (so an
unsupplied icon is passed through `_standardize_icon_path` rather than kept
verbatim); the node model carries no `modified` timestamp, so none is
refreshed. -/
theorem c5_update_amended (env : FsEnv) (data : Dict) (path : List String)
    (oldName newName : String) (upd : UpdData) (parent : Dict) (u nm ic : String)
    (hp : getItemAtPath data path = some parent)
    (hold : dlookup parent oldName = some (Node.url u nm ic))
    (hnc : (decide (oldName ≠ newName) && (dlookup parent newName).isSome) = false) :
    (updateItem env data path oldName newName upd).1 = none ∧
    ∃ parent2,
      getItemAtPath (updateItem env data path oldName newName upd).2 path = some parent2 ∧
      dlookup parent2 newName =
        some (Node.url (upd.url.getD u) newName
          (standardizeIconPath env (upd.icon.getD ic))) := by
  have hres : updateItem env data path oldName newName upd =
      (none, modifyAt (fun d => dset (dremove d oldName) newName
        (Node.url (upd.url.getD u) newName
          (standardizeIconPath env (upd.icon.getD ic)))) data path) := by
    unfold updateItem
    simp only [hp, hold, hnc, Bool.false_eq_true, if_false]
  refine ⟨by rw [hres], ⟨dset (dremove parent oldName) newName
    (Node.url (upd.url.getD u) newName
      (standardizeIconPath env (upd.icon.getD ic))), ?_, dlookup_dset_self _ _ _⟩⟩
  rw [hres]
  exact getItemAtPath_modifyAt _ data path parent hp

/-- C5 (witness): the amended statement at a concrete tree: renaming `B` to
`C` with a supplied `url` but no supplied `icon`. -/
theorem c5_witness :
    (updateItem trivEnv [("B", Node.url "u" "B" "x")] [] "B" "C"
        { url := some "u2", icon := none }).1 = none ∧
    ∃ parent2,
      getItemAtPath (updateItem trivEnv [("B", Node.url "u" "B" "x")] [] "B" "C"
          { url := some "u2", icon := none }).2 [] = some parent2 ∧
      dlookup parent2 "C" =
        some (Node.url ((some "u2").getD "u") "C"
          (standardizeIconPath trivEnv ((none : Option String).getD "x"))) :=
  c5_update_amended trivEnv [("B", Node.url "u" "B" "x")] [] "B" "C"
    { url := some "u2", icon := none } [("B", Node.url "u" "B" "x")] "u" "B" "x"
    rfl (by simp [dlookup]) (by simp [dlookup])

/-- Python `str.lower()` (ASCII case mapping, which covers every string
these claims evaluate). -/
def pyLower (s : String) : String := String.mk (s.data.map Char.toLower)

/-- Python's substring operator `needle in hay` over the characters of the
strings. -/
def subIn (n : List Char) : List Char → Bool
  | [] => n.isEmpty
  | c :: t => n.isPrefixOf (c :: t) || subIn n t

/-- Python `needle in hay` on strings. -/
def pyIn (needle hay : String) : Bool := subIn needle.toList hay.toList

/-- One entry of the `DataManager.search` result list:
`{"path": ..., "item": ..., "name": ...}`. -/
structure SearchRes where
  path : List String
  item : Node
  name : String
deriving Repr

/-- The recursive `search_in` closure of `DataManager.search`, with its
shared `results` accumulator made explicit: per item, append on a name
match, then (URL items) append on a url match unless an entry with the same
path is already present, then recurse into folder children, then continue
with the remaining siblings. -/
def dmSearchIn (q : String) : Dict → List String → List SearchRes → List SearchRes
  | [], _, res => res
  | (name, Node.url u un ui) :: rest, path, res =>
      let cp := path ++ [name]
      let res1 := if pyIn (pyLower q) (pyLower name) then
          res ++ [⟨cp, Node.url u un ui, name⟩] else res
      let res2 := if pyIn (pyLower q) (pyLower u) then
          (if res1.any (fun r => decide (r.path = cp)) then res1
            else res1 ++ [⟨cp, Node.url u un ui, name⟩])
        else res1
      dmSearchIn q rest path res2
  | (name, Node.folder fn ch) :: rest, path, res =>
      let cp := path ++ [name]
      let res1 := if pyIn (pyLower q) (pyLower name) then
          res ++ [⟨cp, Node.folder fn ch, name⟩] else res
      let res2 := dmSearchIn q ch cp res1
      dmSearchIn q rest path res2

/-- `DataManager.search(query)`. -/
def dmSearch (q : String) (data : Dict) : List SearchRes := dmSearchIn q data [] []

/-- The matching predicate the claim describes, read off the code: the
lowercased query is a substring of the lowercased name or, for URL items,
of the lowercased url. -/
def nodeMatches (q name : String) : Node → Bool
  | Node.url u _ _ => pyIn (pyLower q) (pyLower name) || pyIn (pyLower q) (pyLower u)
  | Node.folder _ _ => pyIn (pyLower q) (pyLower name)

/-- Specification-side result list: exactly one entry per matching node, in
depth-first pre-order. -/
def searchSpec (q : String) : Dict → List String → List SearchRes
  | [], _ => []
  | (name, item) :: rest, path =>
      let cp := path ++ [name]
      (if nodeMatches q name item then [⟨cp, item, name⟩] else []) ++
        (match item with
          | Node.folder _ ch => searchSpec q ch cp
          | _ => []) ++
        searchSpec q rest path

mutual

/-- Well-formed node: folder children are well-formed dicts. -/
def nodeWF : Node → Bool
  | Node.url _ _ _ => true
  | Node.folder _ ch => dictWF ch

/-- Well-formed dict: sibling names are unique at every level (always true
of an actual Python dict-of-dicts). -/
def dictWF : Dict → Bool
  | [] => true
  | (k, v) :: tl => decide (k ∉ tl.map Prod.fst) && nodeWF v && dictWF tl

end

theorem prefix_snoc_inj {a : List String} {x y : String} {l : List String}
    (h1 : (a ++ [x]) <+: l) (h2 : (a ++ [y]) <+: l) : x = y := by
  obtain ⟨t1, h1⟩ := h1
  obtain ⟨t2, h2⟩ := h2
  rw [← h2] at h1
  rw [List.append_assoc, List.append_assoc] at h1
  have := List.append_cancel_left h1
  injection this

theorem not_snoc_prefix_self (l : List String) (x : String) : ¬ (l ++ [x]) <+: l := by
  intro h
  have := h.length_le
  simp at this

/-- Entries produced by `searchSpec` all live strictly below one of the
sibling names. -/
theorem searchSpec_prefix (q : String) : ∀ (n : Nat) (items : Dict),
    sizeOf items ≤ n → ∀ (path : List String) (r : SearchRes),
    r ∈ searchSpec q items path →
    ∃ nm, nm ∈ items.map Prod.fst ∧ (path ++ [nm]) <+: r.path := by
  intro n
  induction n using Nat.strong_induction_on with
  | _ n ih =>
      intro items hsz path r hr
      match items with
      | [] => simp [searchSpec] at hr
      | (name, item) :: rest =>
          have hszr : sizeOf rest < n := by
            have h1 : sizeOf rest < sizeOf ((name, item) :: rest) := by simp
            omega
          cases item with
          | url u un ui =>
              simp only [searchSpec, List.mem_append] at hr
              rcases hr with (hr | hr) | hr
              · refine ⟨name, by simp, ?_⟩
                have hpath : r.path = path ++ [name] := by
                  rcases Bool.eq_false_or_eq_true
                      (nodeMatches q name (Node.url u un ui)) with hb | hb <;>
                    simp [hb] at hr
                  rw [hr]
                rw [hpath]
              · simp at hr
              · obtain ⟨nm2, hmem, hpre⟩ := ih _ hszr rest (le_refl _) path r hr
                exact ⟨nm2, by simp [hmem], hpre⟩
          | folder fn ch =>
              have hszc : sizeOf ch < n := by
                have h1 : sizeOf ch < sizeOf ((name, Node.folder fn ch) :: rest) := by
                  simp
                  omega
                omega
              simp only [searchSpec, List.mem_append] at hr
              rcases hr with (hr | hr) | hr
              · refine ⟨name, by simp, ?_⟩
                have hpath : r.path = path ++ [name] := by
                  rcases Bool.eq_false_or_eq_true
                      (nodeMatches q name (Node.folder fn ch)) with hb | hb <;>
                    simp [hb] at hr
                  rw [hr]
                rw [hpath]
              · obtain ⟨nm2, _, hpre⟩ := ih _ hszc ch (le_refl _) _ r hr
                refine ⟨name, by simp, ?_⟩
                exact List.IsPrefix.trans ⟨[nm2], rfl⟩ hpre
              · obtain ⟨nm2, hmem, hpre⟩ := ih _ hszr rest (le_refl _) path r hr
                exact ⟨nm2, by simp [hmem], hpre⟩

/-- The `search_in` traversal, started on an accumulator none of whose
entries lives below a sibling name, appends exactly the one-entry-per-match
pre-order listing. -/
theorem dmSearchIn_eq (q : String) : ∀ (n : Nat) (items : Dict),
    sizeOf items ≤ n → ∀ (path : List String) (res : List SearchRes),
    dictWF items = true →
    (∀ r ∈ res, ∀ nm, nm ∈ items.map Prod.fst → ¬ (path ++ [nm]) <+: r.path) →
    dmSearchIn q items path res = res ++ searchSpec q items path := by
  intro n
  induction n using Nat.strong_induction_on with
  | _ n ih =>
    intro items hsz path res hwf hfresh
    match items with
    | [] => simp [dmSearchIn, searchSpec]
    | (name, item) :: rest =>
      have hszr : sizeOf rest < n := by
        have h1 : sizeOf rest < sizeOf ((name, item) :: rest) := by simp
        omega
      simp only [dictWF, Bool.and_eq_true, decide_eq_true_iff] at hwf
      obtain ⟨⟨hnotin, hnwf⟩, hwfr⟩ := hwf
      have hcpne : ∀ r ∈ res, r.path ≠ path ++ [name] := by
        intro r hr heq
        exact hfresh r hr name (by simp) (by rw [heq])
      have hrest : ∀ (res2 : List SearchRes),
          (∀ r ∈ res2, r ∈ res ∨ (path ++ [name]) <+: r.path) →
          dmSearchIn q rest path res2 = res2 ++ searchSpec q rest path := by
        intro res2 hsub
        refine ih _ hszr rest (le_refl _) path res2 hwfr ?_
        intro r hr nm' hnm' hpre
        rcases hsub r hr with h | h
        · exact hfresh r h nm' (by simp [hnm']) hpre
        · exact hnotin ((prefix_snoc_inj hpre h) ▸ hnm')
      cases item with
      | url u un ui =>
          have hentry : ∀ (res2 : List SearchRes) (E : List SearchRes),
              res2 = res ++ E →
              (E = [] ∨ E = [⟨path ++ [name], Node.url u un ui, name⟩]) →
              ∀ r ∈ res2, r ∈ res ∨ (path ++ [name]) <+: r.path := by
            rintro res2 E rfl (rfl | rfl) r hr
            · exact Or.inl (by simpa using hr)
            · rcases List.mem_append.mp hr with h | h
              · exact Or.inl h
              · right
                simp only [List.mem_singleton] at h
                rw [h]
          cases hnm : pyIn (pyLower q) (pyLower name) with
          | true =>
              have h1 : dmSearchIn q ((name, Node.url u un ui) :: rest) path res =
                  dmSearchIn q rest path
                    (res ++ [⟨path ++ [name], Node.url u un ui, name⟩]) := by
                cases hurl : pyIn (pyLower q) (pyLower u) <;>
                  simp [dmSearchIn, hnm, hurl, List.any_append]
              rw [h1, hrest _ (hentry _ _ rfl (Or.inr rfl))]
              simp [searchSpec, nodeMatches, hnm]
          | false =>
              cases hurl : pyIn (pyLower q) (pyLower u) with
              | true =>
                  have hany : res.any (fun r => decide (r.path = path ++ [name])) = false := by
                    rw [List.any_eq_false]
                    intro r hr
                    simpa using hcpne r hr
                  have h1 : dmSearchIn q ((name, Node.url u un ui) :: rest) path res =
                      dmSearchIn q rest path
                        (res ++ [⟨path ++ [name], Node.url u un ui, name⟩]) := by
                    simp [dmSearchIn, hnm, hurl, hany]
                  rw [h1, hrest _ (hentry _ _ rfl (Or.inr rfl))]
                  simp [searchSpec, nodeMatches, hnm, hurl]
              | false =>
                  have h1 : dmSearchIn q ((name, Node.url u un ui) :: rest) path res =
                      dmSearchIn q rest path res := by
                    simp [dmSearchIn, hnm, hurl]
                  rw [h1, hrest res (fun r hr => Or.inl hr)]
                  simp [searchSpec, nodeMatches, hnm, hurl]
      | folder fn ch =>
          have hszc : sizeOf ch < n := by
            have h1 : sizeOf ch < sizeOf ((name, Node.folder fn ch) :: rest) := by
              simp
              omega
            omega
          rw [nodeWF] at hnwf
          have hres1 : ∀ (res1 : List SearchRes) (E : List SearchRes),
              res1 = res ++ E →
              (E = [] ∨ E = [⟨path ++ [name], Node.folder fn ch, name⟩]) →
              ∀ r ∈ res1, r ∈ res ∨ r.path = path ++ [name] := by
            rintro res1 E rfl (rfl | rfl) r hr
            · exact Or.inl (by simpa using hr)
            · rcases List.mem_append.mp hr with h | h
              · exact Or.inl h
              · right
                simp only [List.mem_singleton] at h
                rw [h]
          have hch : ∀ (res1 : List SearchRes),
              (∀ r ∈ res1, r ∈ res ∨ r.path = path ++ [name]) →
              dmSearchIn q ch (path ++ [name]) res1 =
                res1 ++ searchSpec q ch (path ++ [name]) := by
            intro res1 hsub
            refine ih _ hszc ch (le_refl _) (path ++ [name]) res1 hnwf ?_
            intro r hr nm' _ hpre
            rcases hsub r hr with h | h
            · refine hfresh r h name (by simp) ?_
              exact List.IsPrefix.trans ⟨[nm'], by simp⟩ hpre
            · rw [h] at hpre
              exact not_snoc_prefix_self _ _ hpre
          have hsubch : ∀ (res1 : List SearchRes),
              (∀ r ∈ res1, r ∈ res ∨ r.path = path ++ [name]) →
              ∀ r ∈ res1 ++ searchSpec q ch (path ++ [name]),
                r ∈ res ∨ (path ++ [name]) <+: r.path := by
            intro res1 hsub r hr
            rcases List.mem_append.mp hr with h | h
            · rcases hsub r h with h2 | h2
              · exact Or.inl h2
              · exact Or.inr (by rw [h2])
            · obtain ⟨nm2, _, hpre⟩ :=
                searchSpec_prefix q (sizeOf ch) ch (le_refl _) _ r h
              exact Or.inr (List.IsPrefix.trans ⟨[nm2], by simp⟩ hpre)
          cases hnm : pyIn (pyLower q) (pyLower name) with
          | true =>
              have h1 : dmSearchIn q ((name, Node.folder fn ch) :: rest) path res =
                  dmSearchIn q rest path
                    (dmSearchIn q ch (path ++ [name])
                      (res ++ [⟨path ++ [name], Node.folder fn ch, name⟩])) := by
                simp [dmSearchIn, hnm]
              rw [h1, hch _ (hres1 _ _ rfl (Or.inr rfl)),
                hrest _ (hsubch _ (hres1 _ _ rfl (Or.inr rfl)))]
              simp [searchSpec, nodeMatches, hnm]
          | false =>
              have h1 : dmSearchIn q ((name, Node.folder fn ch) :: rest) path res =
                  dmSearchIn q rest path (dmSearchIn q ch (path ++ [name]) res) := by
                simp [dmSearchIn, hnm]
              rw [h1, hch res (fun r hr => Or.inl hr),
                hrest _ (hsubch res (fun r hr => Or.inl hr))]
              simp [searchSpec, nodeMatches, hnm]

/-- The in-memory `Bookmark` object built by `Bookmark.from_dict` from a
stored URL item (which carries only `type`/`url`/`name`/`icon`): `tags`
defaults to `[]` and `description` to `""`. -/
structure PyBookmark where
  name : String
  url : String
  icon : String
  tags : List String
  description : String
deriving Repr

/-- `SearchService.search` options (after merging with the defaults). -/
structure SearchOpts where
  caseSensitive : Bool
  searchUrls : Bool
  searchNames : Bool
  searchDescriptions : Bool
  searchTags : Bool
  maxResults : Nat
deriving Repr

/-- The `default_options` dict of `SearchService.search`. -/
def defaultOpts : SearchOpts :=
  { caseSensitive := false, searchUrls := true, searchNames := true,
    searchDescriptions := true, searchTags := true, maxResults := 100 }

/-- `SearchService._get_all_bookmarks`: collect `(path, Bookmark)` pairs
for URL items only, in depth-first pre-order; folders contribute no
entry. -/
def getAllBookmarks : Dict → List String → List (List String × PyBookmark)
  | [], _ => []
  | (name, Node.url u un ui) :: rest, path =>
      (path ++ [name], ⟨un, u, ui, [], ""⟩) :: getAllBookmarks rest path
  | (name, Node.folder _ ch) :: rest, path =>
      getAllBookmarks ch (path ++ [name]) ++ getAllBookmarks rest path

/-- `SearchService._bookmark_matches`. -/
def bookmarkMatches (b : PyBookmark) (q : String) (o : SearchOpts) : Bool :=
  (o.searchNames && pyIn q (if o.caseSensitive then b.name else pyLower b.name)) ||
  (o.searchUrls && pyIn q (if o.caseSensitive then b.url else pyLower b.url)) ||
  (o.searchDescriptions && decide (b.description ≠ "") &&
    pyIn q (if o.caseSensitive then b.description else pyLower b.description)) ||
  (o.searchTags && decide (b.tags ≠ []) &&
    b.tags.any (fun t => pyIn q (if o.caseSensitive then t else pyLower t)))

/-- The result-accumulation loop of `SearchService._perform_search`,
including the `max_results` early exit. -/
def performSearchLoop (q : String) (o : SearchOpts) :
    List (List String × PyBookmark) → List (List String × PyBookmark × String) →
    List (List String × PyBookmark × String)
  | [], res => res
  | (p, b) :: rest, res =>
      if bookmarkMatches b q o then
        let res2 := res ++ [(p, b, b.name)]
        if decide (0 < o.maxResults) && decide (o.maxResults ≤ res2.length) then res2
        else performSearchLoop q o rest res2
      else performSearchLoop q o rest res

/-- `SearchService._perform_search(query, options)`: lowercase the query
unless case-sensitive, then scan the collected bookmarks. -/
def performSearch (q : String) (o : SearchOpts) (data : Dict) :
    List (List String × PyBookmark × String) :=
  performSearchLoop (if o.caseSensitive then q else pyLower q) o
    (getAllBookmarks data []) []

/-- C8 (counterexample): in the tree `{Match: {}}` the folder node `Match`
matches the query `"match"` by case-insensitive substring on its name, yet
`SearchService._perform_search` with the default options returns no entry
for it — the options-driven search enumerates bookmark (URL) nodes only. -/
theorem c8_counterexample :
    pyIn "match" (pyLower "Match") = true ∧
    performSearch "match" defaultOpts [("Match", Node.folder none [])] = [] := by
  constructor
  · rfl
  · simp [performSearch, getAllBookmarks, performSearchLoop]

/-- C8 (amended): for every well-formed tree (sibling names unique at each
level, as in an actual Python dict) and every query,
`DataManager.search` returns exactly one entry per matching node — a node
matches when the lowercased query is a substring of the lowercased name
or, for URL items, of the lowercased url (there are no options on this
path; url matching is always on, and description/tags do not exist in the
stored model) — and the entries appear in depth-first pre-order.  The
options-driven `SearchService._perform_search` instead enumerates bookmark
nodes only, so matching folders produce no entry there (see the
counterexample). -/
theorem c8_search_amended (q : String) (data : Dict) (h : dictWF data = true) :
    dmSearch q data = searchSpec q data [] := by
  unfold dmSearch
  have h2 := dmSearchIn_eq q (sizeOf data) data (le_refl _) [] [] h
    (by intro r hr; cases hr)
  simpa using h2

def wtree : Dict :=
  [("Work", Node.folder none
      [("Mail", Node.url "https://mail.example" "Mail" "")]),
   ("Home", Node.url "https://home.example" "Home" "")]

/-- C8 (witness): the amended characterization applied at a concrete
two-level tree. -/
theorem c8_witness : dmSearch "o" wtree = searchSpec "o" wtree [] :=
  c8_search_amended "o" wtree (by decide)

def digitChar (n : Nat) : Char := Char.ofNat (48 + n)

/-- Decimal digits of `n`, most significant first (the characters of
Python's `str(n)` for a non-negative `n`); fuel-based so that it reduces on
concrete inputs, with `n + 1` fuel always sufficient. -/
def natDigitsAux : Nat → Nat → List Char
  | 0, n => [digitChar n]
  | fuel + 1, n =>
      if n < 10 then [digitChar n]
      else natDigitsAux fuel (n / 10) ++ [digitChar (n % 10)]

def natDigits (n : Nat) : List Char := natDigitsAux n n

/-- Python `str(n)`. -/
def natStr (n : Nat) : String := String.mk (natDigits n)

theorem natDigitsAux_eq (n : Nat) : ∀ fuel fuel', n ≤ fuel → n ≤ fuel' →
    natDigitsAux fuel n = natDigitsAux fuel' n := by
  induction n using Nat.strong_induction_on with
  | _ n ih =>
      intro fuel fuel' h h'
      match fuel, fuel' with
      | 0, 0 => rfl
      | 0, f' + 1 =>
          have : n = 0 := by omega
          subst this
          simp [natDigitsAux]
      | f + 1, 0 =>
          have : n = 0 := by omega
          subst this
          simp [natDigitsAux]
      | f + 1, f' + 1 =>
          by_cases h10 : n < 10
          · simp [natDigitsAux, h10]
          · have hdiv : n / 10 < n := Nat.div_lt_self (by omega) (by omega)
            simp only [natDigitsAux, h10, if_false]
            rw [ih (n / 10) hdiv f f' (by omega) (by omega)]

theorem natDigits_ge (n : Nat) (h : 10 ≤ n) :
    natDigits n = natDigits (n / 10) ++ [digitChar (n % 10)] := by
  have hdiv : n / 10 < n := Nat.div_lt_self (by omega) (by omega)
  match n, h with
  | n + 1, h =>
      show natDigitsAux (n + 1) (n + 1) = _
      simp only [natDigitsAux, Nat.not_lt.mpr h, if_false]
      rw [natDigitsAux_eq ((n + 1) / 10) n ((n + 1) / 10) (by omega) (le_refl _)]
      rfl

/-- Accumulator-style decimal value of a digit string. -/
def digitsValFrom (acc : Nat) : List Char → Nat
  | [] => acc
  | c :: t => digitsValFrom (acc * 10 + (c.toNat - 48)) t

theorem digitsValFrom_append (l1 l2 : List Char) : ∀ acc,
    digitsValFrom acc (l1 ++ l2) = digitsValFrom (digitsValFrom acc l1) l2 := by
  induction l1 with
  | nil => intro acc; rfl
  | cons c t ih => intro acc; exact ih _

theorem digitChar_toNat (n : Nat) (h : n < 10) : (digitChar n).toNat = 48 + n := by
  interval_cases n <;> decide

theorem natDigits_val (n : Nat) : ∀ acc,
    digitsValFrom acc (natDigits n) = acc * 10 ^ (natDigits n).length + n := by
  induction n using Nat.strong_induction_on with
  | _ n ih =>
      intro acc
      by_cases h10 : n < 10
      · have : natDigits n = [digitChar n] := by
          match n with
          | 0 => rfl
          | m + 1 => show natDigitsAux (m + 1) (m + 1) = _; simp [natDigitsAux, h10]
        rw [this]
        rw [show digitsValFrom acc [digitChar n] =
          acc * 10 + ((digitChar n).toNat - 48) from rfl]
        rw [digitChar_toNat n h10]
        simp only [List.length_singleton, pow_one]
        omega
      · have hdiv : n / 10 < n := Nat.div_lt_self (by omega) (by omega)
        rw [natDigits_ge n (by omega), digitsValFrom_append, ih (n / 10) hdiv acc]
        rw [show digitsValFrom (acc * 10 ^ (natDigits (n / 10)).length + n / 10)
              [digitChar (n % 10)] =
            (acc * 10 ^ (natDigits (n / 10)).length + n / 10) * 10 +
              ((digitChar (n % 10)).toNat - 48) from rfl]
        rw [digitChar_toNat (n % 10) (Nat.mod_lt n (by omega)),
          List.length_append, List.length_singleton]
        generalize (natDigits (n / 10)).length = L
        rw [pow_succ]
        have h48 : 48 + n % 10 - 48 = n % 10 := by omega
        rw [h48]
        have hring : (acc * 10 ^ L + n / 10) * 10 + n % 10 =
            acc * (10 ^ L * 10) + (n / 10 * 10 + n % 10) := by ring
        rw [hring]
        have hmod : n / 10 * 10 + n % 10 = n := by omega
        rw [hmod]

theorem natDigits_inj {m n : Nat} (h : natDigits m = natDigits n) : m = n := by
  have hm := natDigits_val m 0
  have hn := natDigits_val n 0
  rw [h] at hm
  simp at hm hn
  omega

theorem natStr_inj {m n : Nat} (h : natStr m = natStr n) : m = n := by
  unfold natStr at h
  exact natDigits_inj (by injection h)

/-- A candidate name tried by the import-wrapper collision loop:
`f"{base}({counter})"`. -/
def candName (base : String) (c : Nat) : String := base ++ "(" ++ natStr c ++ ")"

theorem candName_inj (base : String) {c1 c2 : Nat}
    (h : candName base c1 = candName base c2) : c1 = c2 := by
  unfold candName at h
  apply natStr_inj
  have h2 := congrArg String.data h
  simp only [String.data_append] at h2
  have h3 := List.append_cancel_right h2
  have h4 := List.append_cancel_left h3
  exact String.ext h4

/-- The `while folder_name in data` loop of the import wrappers, counter
starting at `c`; fuel-based (the freshness theorem shows
`keys.length + 1` fuel always finds a free name). -/
def freshNameAux (keys : List String) (base : String) : Nat → Nat → String
  | 0, c => candName base c
  | fuel + 1, c =>
      if candName base c ∈ keys then freshNameAux keys base fuel (c + 1)
      else candName base c

/-- The fresh top-level wrapper name chosen by `import_json` /
`import_html`: `base` itself if free, else `base(2)`, `base(3)`, … -/
def freshName (keys : List String) (base : String) : String :=
  if base ∈ keys then freshNameAux keys base (keys.length + 1) 2 else base

theorem freshNameAux_fresh (keys : List String) (base : String) :
    ∀ (fuel c : Nat), (∃ i, i < fuel ∧ candName base (c + i) ∉ keys) →
    freshNameAux keys base fuel c ∉ keys := by
  intro fuel
  induction fuel with
  | zero =>
      rintro c ⟨i, hi, _⟩
      omega
  | succ f ih =>
      rintro c ⟨i, hi, hfree⟩
      by_cases hc : candName base c ∈ keys
      · have hi0 : i ≠ 0 := by
          rintro rfl
          simp at hfree
          exact hfree hc
        simp only [freshNameAux, hc, if_true]
        refine ih (c + 1) ⟨i - 1, by omega, ?_⟩
        have : c + 1 + (i - 1) = c + i := by omega
        rw [this]
        exact hfree
      · simp only [freshNameAux, hc, if_false]
        trivial

theorem exists_free_cand (keys : List String) (base : String) (c : Nat) :
    ∃ i, i < keys.length + 1 ∧ candName base (c + i) ∉ keys := by
  by_contra hall
  push_neg at hall
  have hinj : Function.Injective (fun i : Nat => candName base (c + i)) := by
    intro i j hij
    have := candName_inj base hij
    omega
  set cands : List String :=
    (List.range (keys.length + 1)).map (fun i => candName base (c + i)) with hc
  have hnodup : cands.Nodup := List.Nodup.map hinj (List.nodup_range _)
  have hsub : cands ⊆ keys := by
    intro x hx
    rw [hc, List.mem_map] at hx
    obtain ⟨i, hi, rfl⟩ := hx
    rw [List.mem_range] at hi
    exact hall i hi
  have hlen : cands.length = keys.length + 1 := by simp [hc]
  have hcard1 : cands.toFinset.card = keys.length + 1 := by
    rw [List.toFinset_card_of_nodup hnodup, hlen]
  have hcard2 : cands.toFinset ⊆ keys.toFinset := by
    intro x hx
    rw [List.mem_toFinset] at hx ⊢
    exact hsub hx
  have := Finset.card_le_card hcard2
  have hk := List.toFinset_card_le keys
  omega

/-- The wrapper name chosen by the import collision loop never collides
with an existing top-level name. -/
theorem freshName_not_mem (keys : List String) (base : String) :
    freshName keys base ∉ keys := by
  unfold freshName
  by_cases hb : base ∈ keys
  · simp only [hb, if_true]
    exact freshNameAux_fresh keys base (keys.length + 1) 2 (by
      obtain ⟨i, hi, hfree⟩ := exists_free_cand keys base 2
      exact ⟨i, hi, hfree⟩)
  · simp only [hb, if_false]
    trivial

/-- Python `str.upper()` (ASCII case mapping; the tags compared are
ASCII). -/
def pyUpper (s : String) : String := String.mk (s.data.map Char.toUpper)

/-- Python `str.strip()` (ASCII whitespace; the strings these claims
evaluate contain no exotic whitespace). -/
def pyStrip (s : String) : String :=
  String.mk (((s.data.dropWhile Char.isWhitespace).reverse.dropWhile
    Char.isWhitespace).reverse)

/-- Python `str.startswith(pre)`. -/
def pyStartsWith (s pre : String) : Bool := pre.data.isPrefixOf s.data

mutual

/-- `ImportExportService._count_items`: one per entry, plus the recursive
count of folder children. -/
def countItems : Dict → Nat
  | [] => 0
  | (_, v) :: rest => 1 + countNode v + countItems rest

def countNode : Node → Nat
  | Node.url _ _ _ => 0
  | Node.folder _ ch => countItems ch

end

/-- `ImportExportService._escape_html` character by character; the chained
`str.replace` calls of the source are equivalent to this single pass
because `&` is replaced first and no later replacement introduces a
character replaced afterwards. -/
def escChar : Char → List Char
  | '&' => "&amp;".data
  | '<' => "&lt;".data
  | '>' => "&gt;".data
  | '"' => "&quot;".data
  | '\'' => "&#039;".data
  | c => [c]

def escList : List Char → List Char
  | [] => []
  | c :: t => escChar c ++ escList t

def escapeHtml (s : String) : String := String.mk (escList s.data)

/-- `"    " * indent_level`. -/
def indentStr : Nat → String
  | 0 => ""
  | n + 1 => "    " ++ indentStr n

mutual

/-- `ImportExportService._generate_folder_html`. -/
def genFolderHtml : Dict → Nat → String
  | [], _ => ""
  | (name, v) :: rest, lvl => genItemHtml name v lvl ++ genFolderHtml rest lvl

def genItemHtml : String → Node → Nat → String
  | name, Node.folder _ ch, lvl =>
      indentStr lvl ++ "<DT><H3>" ++ escapeHtml name ++ "</H3>\n" ++
      indentStr lvl ++ "<DL><p>\n" ++
      genFolderHtml ch (lvl + 1) ++
      indentStr lvl ++ "</DL><p>\n"
  | _, Node.url u un ui, lvl =>
      indentStr lvl ++ "<DT><A HREF=\"" ++ escapeHtml u ++ "\"" ++
      (if ui ≠ "" then " ICON=\"" ++ escapeHtml ui ++ "\"" else "") ++ ">" ++
      escapeHtml un ++ "</A>\n"

end

def htmlHeader : String :=
  "<!DOCTYPE NETSCAPE-Bookmark-file-1>\n" ++
  "<!-- This is an automatically generated file.\n" ++
  "     It will be read and overwritten.\n" ++
  "     DO NOT EDIT! -->\n" ++
  "<META HTTP-EQUIV=\"Content-Type\" CONTENT=\"text/html; charset=UTF-8\">\n" ++
  "<TITLE>Bookmarks</TITLE>\n" ++
  "<H1>Bookmarks</H1>\n" ++
  "<DL><p>\n"

/-- `ImportExportService._generate_bookmark_html`. -/
def generateBookmarkHtml (data : Dict) : String :=
  htmlHeader ++ genFolderHtml data 1 ++ "</DL><p>\n"

/-- `ImportExportService.export_html`: the returned count and the file
content written. -/
def exportHtml (data : Dict) : Nat × String :=
  (countItems data, generateBookmarkHtml data)

/-- `ImportExportService.import_json`, with the file read and `json.load`
already performed: the payload is the parsed top-level dict.  This
embedding types the payload as a bookmark dict, so every item carries a
`type` discriminator and the code's valid-structure probe (`any item whose
type is "folder" or "url"`) reduces to non-emptiness of the payload. -/
def importJson (payload : Dict) (data : Dict) : Nat × Dict :=
  if payload.isEmpty then (0, data)
  else
    let fname := freshName (data.map Prod.fst) "已导入(JSON)"
    (countItems payload, dset data fname (Node.folder none payload))

/-- `f"{name} ({counter})"`, the sibling-collision suffix used inside the
HTML import (note the space, unlike the wrapper-name suffix). -/
def linkSuffix (name : String) (c : Nat) : String :=
  name ++ " (" ++ natStr c ++ ")"

/-- The `while final_name in container` collision loop of the HTML import,
returning the updated container and the key actually used; fuel-based
(`container.length + 1` always suffices, as for `freshName`). -/
def dedupInsertAuxK (container : Dict) (name : String) (v : Node) :
    Nat → Nat → Dict × String
  | 0, c => (container ++ [(linkSuffix name c, v)], linkSuffix name c)
  | fuel + 1, c =>
      if (dlookup container (linkSuffix name c)).isSome then
        dedupInsertAuxK container name v fuel (c + 1)
      else (container ++ [(linkSuffix name c, v)], linkSuffix name c)

def dedupInsertK (container : Dict) (name : String) (v : Node) : Dict × String :=
  if (dlookup container name).isSome then
    dedupInsertAuxK container name v (container.length + 1) 1
  else (container ++ [(name, v)], name)

def dedupInsert (container : Dict) (name : String) (v : Node) : Dict :=
  (dedupInsertK container name v).1

/-- The `has_a_tag and not has_dangerous_pattern` verdict of
`ImportExportService._is_valid_html_structure` (the other flags it computes
are logged but do not affect the result). -/
def dangerousPatterns : List String :=
  ["javascript:", "data:text/html", "vbscript:", "document.cookie",
   "eval(", "document.write"]

def isValidHtmlStructure (content : String) : Bool :=
  pyIn "<a " (pyLower content) &&
    !(dangerousPatterns.any (fun p => pyIn p (pyLower content)))

/-- The `'<DL>' in html_content.upper() or '<DL ' in ...` probe of
`import_html`. -/
def hasDLTag (content : String) : Bool :=
  pyIn "<DL>" (pyUpper content) || pyIn "<DL " (pyUpper content)

/-- Modelled from the spec: the "DOM-like tree" of §4.4 stage 3 that the
external HTML library builds from the markup (element with lowercased tag
name and attributes, or text).  The parser itself is the external
BeautifulSoup library and is not part of this repository; the import code
under verification consumes such a tree through `find` / `find_all` /
`.text` / attribute access / parent traversal, all modelled below. -/
inductive Dom where
  | elem (tag : String) (attrs : List (String × String)) (children : List Dom)
  | txt (s : String)
deriving Repr

/-- The node at a child-index path (positions address nodes relative to a
root; the parent of a node is the node at the path without its last
index). -/
def subAt : Dom → List Nat → Option Dom
  | d, [] => some d
  | Dom.txt _, _ :: _ => none
  | Dom.elem _ _ cs, i :: rest =>
      match cs.get? i with
      | some c => subAt c rest
      | none => none

mutual

/-- Positions (relative to the searched node) of all descendant elements
with the given tag, in document (pre-)order: BeautifulSoup
`find_all(tag)`. -/
def domFindAll (tag : String) : Dom → List (List Nat)
  | Dom.txt _ => []
  | Dom.elem _ _ cs => domsFindAll tag cs 0

def domsFindAll (tag : String) : List Dom → Nat → List (List Nat)
  | [], _ => []
  | c :: t, i =>
      (match c with
        | Dom.elem tg _ _ => if tg = tag then [[i]] else []
        | Dom.txt _ => []) ++
      (domFindAll tag c).map (fun p => i :: p) ++
      domsFindAll tag t (i + 1)

end

/-- BeautifulSoup `find(tag)`: the first matching descendant in document
order. -/
def domFind (tag : String) (d : Dom) : Option (List Nat) :=
  (domFindAll tag d).head?

mutual

/-- BeautifulSoup `.text`: concatenation of all descendant strings. -/
def domText : Dom → String
  | Dom.txt s => s
  | Dom.elem _ _ cs => domsText cs

def domsText : List Dom → String
  | [] => ""
  | c :: t => domText c ++ domsText t

end

/-- BeautifulSoup `tag.get(key)`. -/
def domAttr (d : Dom) (k : String) : Option String :=
  match d with
  | Dom.elem _ attrs _ =>
      match attrs.find? (fun a => decide (a.1 = k)) with
      | some a => some a.2
      | none => none
  | Dom.txt _ => none

mutual

def domSize : Dom → Nat
  | Dom.txt _ => 1
  | Dom.elem _ _ cs => 1 + domsSize cs

def domsSize : List Dom → Nat
  | [] => 0
  | c :: t => domSize c + domsSize t

end

/-- An entry of `flat_folders`: `(folder_name, dt)` with the `dt` element
identified by its document position. -/
structure FlatFolder where
  name : String
  pos : List Nat
deriving Repr

/-- An entry of `flat_links`: `(name, url, a, dt)`, with `icon` being
`a.get('icon', '')` (read by step 3 of the source; recorded at collection
time here, same value). -/
structure FlatLink where
  name : String
  url : String
  icon : String
  pos : List Nat
deriving Repr

structure FlatItems where
  folders : List FlatFolder
  links : List FlatLink
deriving Repr

/-- `collect_all_items` of `import_html`: walk `dl.find_all('dt')`
(recursive, so nested `dt`s are seen here *and* again through the explicit
`sub_dl` recursion, exactly as in the source), recording folder markers
(`dt` containing an `h3`) and links (`dt` whose first `a` has a non-empty
`href`).  Positions are relative to the top-level `dl`; fuel-based
recursion with `domSize` fuel (always sufficient: each recursion descends
into a strict subtree). -/
def collectAll : Nat → Dom → List Nat → FlatItems
  | 0, _, _ => ⟨[], []⟩
  | fuel + 1, root, base =>
      (domFindAll "dt" root).foldl (fun acc dtPos =>
        match subAt root dtPos with
        | none => acc
        | some dt =>
            let accF := match domFind "h3" dt with
              | some h3Pos =>
                  let nm := match subAt dt h3Pos with
                    | some h3 => pyStrip (domText h3)
                    | none => ""
                  let fname := if nm = "" then "未命名文件夹" else nm
                  { acc with folders := acc.folders ++ [⟨fname, base ++ dtPos⟩] }
              | none => acc
            let accA := match domFind "a" dt with
              | some aPos =>
                  match subAt dt aPos with
                  | some a =>
                      match domAttr a "href" with
                      | some href =>
                          if href = "" then accF
                          else
                            let nm := if pyStrip (domText a) = "" then href
                              else pyStrip (domText a)
                            let icon := (domAttr a "icon").getD ""
                            { accF with
                              links := accF.links ++ [⟨nm, href, icon, base ++ dtPos⟩] }
                      | none => accF
                  | none => accF
              | none => accF
            match domFind "dl" dt with
            | some dlPos =>
                match subAt dt dlPos with
                | some subDl =>
                    let sub := collectAll fuel subDl (base ++ dtPos ++ dlPos)
                    ⟨accA.folders ++ sub.folders, accA.links ++ sub.links⟩
                | none => accA
            | none => accA) ⟨[], []⟩

def dedupFirstAux : List (List Nat) → List (List Nat) → List (List Nat)
  | [], _ => []
  | p :: t, seen =>
      if p ∈ seen then dedupFirstAux t seen
      else p :: dedupFirstAux t (seen ++ [p])

/-- Key order of the `dt`-keyed `imported_data` dict: first occurrence
wins the position (re-assignments of a duplicate `dt` key keep it). -/
def dedupFirst (l : List (List Nat)) : List (List Nat) := dedupFirstAux l []

/-- The keys of `folder_map` / `imported_data` in iteration order. -/
def folderPoss (fi : FlatItems) : List (List Nat) :=
  dedupFirst (fi.folders.map FlatFolder.pos)

/-- `dt_to_name[dt]` (the last assignment wins, as in a Python dict; for a
duplicated `dt` the names coincide anyway). -/
def dtName (fi : FlatItems) (p : List Nat) : String :=
  ((fi.folders.reverse.find? (fun f => decide (f.pos = p))).map
    FlatFolder.name).getD ""

/-- The positions of the ancestors of a node, nearest first, ending with
the root `[]` (the `parent`-chain walk of steps 3 and 4); fuel-based so it
reduces on concrete inputs. -/
def ancChainAux : Nat → List Nat → List (List Nat)
  | 0, _ => []
  | fuel + 1, p =>
      if p.isEmpty then [] else p.dropLast :: ancChainAux fuel p.dropLast

def ancChain (p : List Nat) : List (List Nat) := ancChainAux p.length p

/-- The nearest enclosing folder marker: the first ancestor that is a key
of `folder_map`. -/
def nearestAnc (poss : List (List Nat)) (p : List Nat) : Option (List Nat) :=
  (ancChain p).find? (fun q => decide (q ∈ poss))

def linksUnder (fi : FlatItems) (p : List Nat) : List FlatLink :=
  fi.links.filter (fun l => decide (nearestAnc (folderPoss fi) l.pos = some p))

def subfoldersUnder (fi : FlatItems) (p : List Nat) : List (List Nat) :=
  (folderPoss fi).filter (fun q => decide (nearestAnc (folderPoss fi) q = some p))

def rootFolders (fi : FlatItems) : List (List Nat) :=
  (folderPoss fi).filter (fun q => decide (nearestAnc (folderPoss fi) q = none))

/-- Steps 3–4 of `import_html`, seen per container: a folder's children
dict receives first its links (step 3, in `flat_links` order, each link
attached to its nearest enclosing folder marker — a link with *no*
enclosing folder marker is skipped by the `continue`), then its subfolders
(step 4, in key order), each insertion running the `" (n)"` collision
loop.  Fuel: nesting strictly increases position length, so the number of
folder keys plus one suffices. -/
def buildFolder (fi : FlatItems) : Nat → List Nat → Dict
  | 0, _ => []
  | fuel + 1, p =>
      let withLinks := (linksUnder fi p).foldl
        (fun acc l => dedupInsert acc l.name (Node.url l.url l.name l.icon)) []
      (subfoldersUnder fi p).foldl
        (fun acc q =>
          dedupInsert acc (dtName fi q) (Node.folder none (buildFolder fi fuel q)))
        withLinks

/-- Step 5 of `import_html`: the root folders (those with no enclosing
folder marker) become the final name-keyed dict.  The source iterates a
Python `set` here, whose order is unspecified; this embedding uses key
(first-occurrence) order. -/
def finalData (fi : FlatItems) : Dict :=
  (rootFolders fi).foldl
    (fun acc q =>
      dedupInsert acc (dtName fi q)
        (Node.folder none (buildFolder fi ((folderPoss fi).length + 1) q)))
    []

/-- The matches `_process_buffer` extracts from one buffer: the inner
texts of `<H3...>...</H3>` matches, the `(href, text)` pairs of
`<A ... HREF="...">...</A>` matches, and the count of `</DL>` occurrences
in the uppercased buffer.  The extraction itself is Python's `re` engine,
abstracted as a parameter wherever the machine runs. -/
structure BufItems where
  h3s : List String
  links : List (String × String)
  dlEnds : Nat

/-- The shared state the `_import_html_chunked` loop threads through
`_process_buffer` calls: the dict tree hanging off `folder_stack[0]`
(initially `{"导入的书签": {"type": "folder", "children": {}}}`), the
stack of container paths into it (bottom first, as the Python list), and
the `current_path` name list.  The caller's `current_folder` variable is
*not* part of this state: `_process_buffer` rebinds only its local copy,
so the caller keeps passing the initial container. -/
structure Machine where
  tree : Dict
  stack : List (List String)
  curPath : List String

def initMachine : Machine :=
  ⟨[("导入的书签", Node.folder none [])], [[]], ["导入的书签"]⟩

/-- The `</DL>` handling (step 3 of `_process_buffer`), run once per
occurrence: pop the stack when more than one entry remains, rebind the
local current folder to the new top, pop `current_path` if non-empty. -/
def popN : Nat → Machine × List String → Machine × List String
  | 0, st => st
  | k + 1, (m, cur) =>
      if 1 < m.stack.length then
        let stack2 := m.stack.dropLast
        let cur2 := stack2.getLast?.getD []
        let curPath2 := if m.curPath.isEmpty then m.curPath else m.curPath.dropLast
        popN k ({ m with stack := stack2, curPath := curPath2 }, cur2)
      else popN k (m, cur)

/-- `_process_buffer(buffer, folder_stack, current_folder, current_path,
bookmark_count)`: step 1 opens a folder per `H3` match (collision-suffixed
into the local current folder, pushed on the stack, appended to
`current_path`, local current folder rebound); step 2 inserts a URL per
anchor match into the local current folder (skipping `javascript:` links),
incrementing the local `bookmark_count`; step 3 pops per `</DL>`.  The
returned count models the function's local variable — the caller's integer
is passed by value and is *not* updated by this call. -/
def processBuffer (items : BufItems) (m : Machine) (curFolder : List String)
    (count : Nat) : Machine × Nat :=
  let st1 := items.h3s.foldl
    (fun (st : Machine × List String) h3text =>
      let (m, cur) := st
      let nm := pyStrip h3text
      let fname := if nm = "" then "未命名文件夹_" ++ natStr m.stack.length else nm
      let cont := (getItemAtPath m.tree cur).getD []
      let ins := dedupInsertK cont fname (Node.folder none [])
      let tree2 := modifyAt (fun _ => ins.1) m.tree cur
      (⟨tree2, m.stack ++ [cur ++ [ins.2]], m.curPath ++ [ins.2]⟩, cur ++ [ins.2]))
    (m, curFolder)
  let st2 := items.links.foldl
    (fun (st : Machine × List String × Nat) l =>
      let (m, cur, cnt) := st
      let url := pyStrip l.1
      let nm0 := pyStrip l.2
      if pyStartsWith url "javascript:" then (m, cur, cnt)
      else
        let nm := if nm0 = "" then url else nm0
        let cont := (getItemAtPath m.tree cur).getD []
        let ins := dedupInsertK cont nm (Node.url url nm "")
        let tree2 := modifyAt (fun _ => ins.1) m.tree cur
        (⟨tree2, m.stack, m.curPath⟩, cur, cnt + 1))
    (st1.1, st1.2, count)
  let st3 := popN items.dlEnds (st2.1, st2.2.1)
  (st3.1, st2.2.2)

/-- Python file line iteration: the pieces of the content split at
newlines (each piece is stripped by the consumer). -/
def splitLines : List Char → List (List Char)
  | [] => [[]]
  | c :: t =>
      if c = '\n' then [] :: splitLines t
      else
        match splitLines t with
        | [] => [[c]]
        | l :: ls => (c :: l) :: ls

def linesOf (content : String) : List String :=
  (splitLines content.data).map String.mk

/-- The line loop of `_import_html_chunked`: accumulate stripped lines
into a buffer and run `_process_buffer` every tenth line or when a closing
`</DL>`/`</H3>`/`</A>` appears in the buffer, then once more on the
leftover buffer.  The caller passes its `bookmark_count` (still `0`) by
value each time and ignores the count computed inside; only the shared
machine state survives. -/
def runMachine (extract : String → BufItems) (lines : List String) : Machine :=
  let final := lines.foldl
    (fun (st : Machine × String × Nat) line =>
      let (m, buffer, lineNum) := st
      let ln := lineNum + 1
      let stripped := pyStrip line
      if stripped = "" then (m, buffer, ln)
      else
        let buf := buffer ++ stripped ++ " "
        if ln % 10 = 0 || pyIn "</DL>" (pyUpper buf) || pyIn "</H3>" (pyUpper buf)
            || pyIn "</A>" (pyUpper buf) then
          ((processBuffer (extract buf) m ["导入的书签"] 0).1, "", ln)
        else (m, buf, ln))
    (initMachine, "", 0)
  if final.2.1 = "" then final.1
  else (processBuffer (extract final.2.1) final.1 ["导入的书签"] 0).1

/-- Python `dict.update(other)`: assign every entry of `other` in order,
overwriting existing keys. -/
def dupdate (d : Dict) : Dict → Dict
  | [] => d
  | (k, v) :: tl => dupdate (dset d k v) tl

/-- The regex-fallback container of `_import_html_chunked` (`"导入的链接"`
children): per `(url, name)` link, an empty name falls back to the url,
`javascript:` links are skipped, and the key runs the `" (n)"` collision
loop.  The raw text is used unstripped, as in the source. -/
def chunkedChildren (links : List (String × String)) : Dict :=
  links.foldl (fun acc pr =>
    let nm := if pr.2 = "" then pr.1 else pr.2
    if pyStartsWith pr.1 "javascript:" then acc
    else dedupInsert acc nm (Node.url pr.1 nm "")) []

/-- The bookmark-marker probe over the first 20 KB of the file
(`has_dl_tag or has_dt_tag or has_a_tags`). -/
def chunkedHeaderOk (content : String) : Bool :=
  let header := String.mk (content.data.take 20480)
  let hasDL := pyIn "<DL>" (pyUpper header) || pyIn "<DL " (pyUpper header)
  let hasDT := pyIn "<DT>" (pyUpper header) || pyIn "<DT " (pyUpper header)
  let hasA := pyIn "<A HREF" (pyUpper header) || pyIn "<A\nHREF" (pyUpper header)
    || pyIn "HREF=" (pyUpper header)
  hasDL || hasDT || hasA

/-- `ImportExportService._import_html_chunked(file_path)`, with the file
abstracted as its size, its textual content, the regex matches of the
final anchor-extraction scan (`regexLinks`), and the buffer-level regex
engine (`extract`).  The size guard uses `file_size / 2**20 > 3`, which on
byte counts equals `3 * 2**20 < file_size`.  The `errors='replace'` reads
never fail, so the header is always available.  After the line loop the
caller's `bookmark_count` is still `0` — `_process_buffer` cannot change
it — so the zero-count fallback always runs: the result is built solely
from `regexLinks` and merged via `dict.update` under the fixed key
`"导入的链接"`.  The bookmark-marker probe over the first 20 KB
(`has_dl_tag or has_dt_tag or has_a_tags`; the other flags computed there
are logged only) is split out as `chunkedHeaderOk` just above. -/
def importHtmlChunked (fileSize : Nat) (content : String)
    (extract : String → BufItems) (regexLinks : List (String × String))
    (data : Dict) : Nat × Dict :=
  if 3 * 1048576 < fileSize then (0, data)
  else if chunkedHeaderOk content = false then (0, data)
  else
    let _machine := runMachine extract (linesOf content)
    if regexLinks.isEmpty then (0, data)
    else
      (regexLinks.length,
        dupdate data [("导入的链接", Node.folder none (chunkedChildren regexLinks))])

/-- `ImportExportService.import_html(file_path)`, with the file abstracted
as its size and textual content, the BeautifulSoup parse abstracted as the
located root `dl` element (`none` when `soup.find('dl')` fails), and the
regex engines abstracted as their match lists.  Branches, in source order:
the 3 MB and empty-file guards, the falsy-content guard after the encoding
probe, `_is_valid_html_structure`, the `<DL>` textual probe (failing which
the chunked fallback runs), then either the regex fallback (no `dl`
element) or the flat-collect-and-rebuild import, each wrapping its result
in a fresh `已导入(HTML)`-suffixed top-level folder. -/
def importHtml (fileSize : Nat) (content : String) (dl? : Option Dom)
    (regexLinks : List (String × String)) (extract : String → BufItems)
    (data : Dict) : Nat × Dict :=
  if 3 * 1048576 < fileSize then (0, data)
  else if fileSize = 0 then (0, data)
  else if content = "" then (0, data)
  else if isValidHtmlStructure content = false then (0, data)
  else if hasDLTag content = false then
    importHtmlChunked fileSize content extract regexLinks data
  else
    match dl? with
    | none =>
        if regexLinks.isEmpty then (0, data)
        else
          let container := regexLinks.foldl (fun acc pr =>
            let nm := if pyStrip pr.2 = "" then pr.1 else pyStrip pr.2
            dedupInsert acc nm (Node.url pr.1 nm "")) []
          let payload : Dict := [("未分类导入链接", Node.folder none container)]
          let fname := freshName (data.map Prod.fst) "已导入(HTML)"
          (regexLinks.length, dset data fname (Node.folder none payload))
    | some dl =>
        let fi := collectAll (domSize dl) dl []
        let fd := finalData fi
        let fname := freshName (data.map Prod.fst) "已导入(HTML)"
        (countItems fd, dset data fname (Node.folder none fd))

/-- A trivial buffer-regex engine, usable wherever the state machine's
input is irrelevant. -/
def extract0 : String → BufItems := fun _ => ⟨[], [], 0⟩

/-- C2: a legacy-HTML import whose file is larger than 3 MB or empty
returns `0` and leaves the tree unchanged; the result is the same for
*every* content, parse result and regex result, i.e. the rejection
precedes any decoding or parsing influence. -/
theorem c2_size_guard (fileSize : Nat) (content : String) (dl? : Option Dom)
    (regexLinks : List (String × String)) (extract : String → BufItems)
    (data : Dict) (h : 3 * 1048576 < fileSize ∨ fileSize = 0) :
    importHtml fileSize content dl? regexLinks extract data = (0, data) := by
  unfold importHtml
  rcases h with h | h
  · rw [if_pos h]
  · rcases Nat.lt_or_ge (3 * 1048576) fileSize with h2 | h2
    · rw [if_pos h2]
    · rw [if_neg (by omega), if_pos h]

/-- C2 (witness): the 4 MB file of the spec's scenario is rejected with
count `0` and an untouched tree. -/
theorem c2_witness :
    importHtml (4 * 1048576) "x" none [] extract0 [] = (0, []) :=
  c2_size_guard (4 * 1048576) "x" none [] extract0 [] (Or.inl (by norm_num))

/-- C10: the chunked import's line-by-line state machine contributes
nothing to the final result: the outcome is identical for any two
buffer-regex engines (the only consumers of the lines), and it is either
`(0, unchanged tree)` or the count and folder built solely from the final
anchor-extraction regex scan, merged under the fixed key `导入的链接`. -/
theorem c10_chunked_state_machine_inert (fileSize : Nat) (content : String)
    (extract1 extract2 : String → BufItems)
    (regexLinks : List (String × String)) (data : Dict) :
    importHtmlChunked fileSize content extract1 regexLinks data =
      importHtmlChunked fileSize content extract2 regexLinks data ∧
    (importHtmlChunked fileSize content extract1 regexLinks data = (0, data) ∨
      importHtmlChunked fileSize content extract1 regexLinks data =
        (regexLinks.length,
          dupdate data
            [("导入的链接", Node.folder none (chunkedChildren regexLinks))])) := by
  have heq : ∀ extract : String → BufItems,
      importHtmlChunked fileSize content extract regexLinks data =
        if 3 * 1048576 < fileSize then (0, data)
        else if chunkedHeaderOk content = false then (0, data)
        else if regexLinks.isEmpty then (0, data)
        else (regexLinks.length,
          dupdate data [("导入的链接", Node.folder none (chunkedChildren regexLinks))]) := by
    intro extract
    simp only [importHtmlChunked]
  constructor
  · rw [heq extract1, heq extract2]
  · rw [heq extract1]
    by_cases hsz : 3 * 1048576 < fileSize
    · left
      simp [hsz]
    · by_cases hflags : chunkedHeaderOk content = false
      · left
        simp [hsz, hflags]
      · by_cases hl : regexLinks.isEmpty
        · left
          simp [hsz, hflags, hl]
        · right
          simp [hsz, hflags, hl]

def chunkTree : Dict := [("导入的链接", Node.url "u" "n" "")]

/-- C3 (counterexample): with an existing top-level entry named
`导入的链接`, a successful chunked legacy-HTML import does not create a
fresh auto-suffixed folder: its `dict.update` merge silently replaces the
pre-existing entry. -/
theorem c3_counterexample :
    dlookup chunkTree "导入的链接" = some (Node.url "u" "n" "") ∧
    (importHtmlChunked 10 "HREF=" extract0 [("https://e.x/", "L")] chunkTree).2 =
      [("导入的链接", Node.folder none [("L", Node.url "https://e.x/" "L" "")])] ∧
    dlookup (importHtmlChunked 10 "HREF=" extract0
        [("https://e.x/", "L")] chunkTree).2 "导入的链接" ≠
      some (Node.url "u" "n" "") := by
  have h2 : (importHtmlChunked 10 "HREF=" extract0
      [("https://e.x/", "L")] chunkTree).2 =
      [("导入的链接", Node.folder none [("L", Node.url "https://e.x/" "L" "")])] := by
    rfl
  refine ⟨rfl, h2, ?_⟩
  rw [h2]
  simp [dlookup]

/-- Assigning a fresh key appends the entry, preserving every existing
entry verbatim. -/
theorem dset_not_mem (d : Dict) (k : String) (v : Node)
    (h : k ∉ d.map Prod.fst) : dset d k v = d ++ [(k, v)] := by
  induction d with
  | nil => rfl
  | cons hd tl ih =>
      obtain ⟨k2, v2⟩ := hd
      simp only [List.map_cons, List.mem_cons] at h
      push_neg at h
      have hne : k2 ≠ k := fun he => h.1 he.symm
      simp only [dset, if_neg hne, List.cons_append]
      rw [ih h.2]

/-- C3 (amended): `import_json` (with a usable payload) and both the
flat-rebuild and regex branches of `import_html` place the entire imported
structure under exactly one *appended* top-level folder whose auto-suffixed
name did not previously exist at the root, so no pre-existing top-level
entry is overwritten; the chunked fallback is the exception — it merges
via `dict.update` under the fixed key `导入的链接` and can replace an
existing entry (see the counterexample). -/
theorem c3_wrap_amended :
    (∀ (payload data : Dict), payload ≠ [] →
      importJson payload data =
        (countItems payload,
          data ++ [(freshName (data.map Prod.fst) "已导入(JSON)",
            Node.folder none payload)]) ∧
      freshName (data.map Prod.fst) "已导入(JSON)" ∉ data.map Prod.fst) ∧
    (∀ (fileSize : Nat) (content : String) (dl : Dom)
        (regexLinks : List (String × String)) (extract : String → BufItems)
        (data : Dict),
      ¬ 3 * 1048576 < fileSize → fileSize ≠ 0 → content ≠ "" →
      isValidHtmlStructure content = true → hasDLTag content = true →
      importHtml fileSize content (some dl) regexLinks extract data =
        (countItems (finalData (collectAll (domSize dl) dl [])),
          data ++ [(freshName (data.map Prod.fst) "已导入(HTML)",
            Node.folder none (finalData (collectAll (domSize dl) dl [])))]) ∧
      freshName (data.map Prod.fst) "已导入(HTML)" ∉ data.map Prod.fst) ∧
    (∀ (fileSize : Nat) (content : String)
        (regexLinks : List (String × String)) (extract : String → BufItems)
        (data : Dict),
      ¬ 3 * 1048576 < fileSize → fileSize ≠ 0 → content ≠ "" →
      isValidHtmlStructure content = true → hasDLTag content = true →
      regexLinks ≠ [] →
      (importHtml fileSize content none regexLinks extract data).2 =
        data ++ [(freshName (data.map Prod.fst) "已导入(HTML)",
          Node.folder none [("未分类导入链接",
            Node.folder none (regexLinks.foldl (fun acc pr =>
              let nm := if pyStrip pr.2 = "" then pr.1 else pyStrip pr.2
              dedupInsert acc nm (Node.url pr.1 nm "")) []))])] ∧
      freshName (data.map Prod.fst) "已导入(HTML)" ∉ data.map Prod.fst) := by
  refine ⟨?_, ?_, ?_⟩
  · intro payload data hne
    have hfresh := freshName_not_mem (data.map Prod.fst) "已导入(JSON)"
    refine ⟨?_, hfresh⟩
    have hpe : payload.isEmpty = false := by
      cases payload with
      | nil => exact absurd rfl hne
      | cons h t => rfl
    simp only [importJson, hpe, Bool.false_eq_true, if_false]
    rw [dset_not_mem data _ _ hfresh]
  · intro fileSize content dl regexLinks extract data hsz hz hc hvalid hdl
    have hfresh := freshName_not_mem (data.map Prod.fst) "已导入(HTML)"
    refine ⟨?_, hfresh⟩
    have hv2 : isValidHtmlStructure content = false ↔ False := by simp [hvalid]
    have hd2 : hasDLTag content = false ↔ False := by simp [hdl]
    simp only [importHtml, if_neg hsz, if_neg hz, if_neg hc, hv2, if_false, hd2]
    rw [dset_not_mem data _ _ hfresh]
  · intro fileSize content regexLinks extract data hsz hz hc hvalid hdl hlinks
    have hfresh := freshName_not_mem (data.map Prod.fst) "已导入(HTML)"
    refine ⟨?_, hfresh⟩
    have hv2 : isValidHtmlStructure content = false ↔ False := by simp [hvalid]
    have hd2 : hasDLTag content = false ↔ False := by simp [hdl]
    have hle : regexLinks.isEmpty = false := by
      cases regexLinks with
      | nil => exact absurd rfl hlinks
      | cons h t => rfl
    simp only [importHtml, if_neg hsz, if_neg hz, if_neg hc, hv2, if_false, hd2,
      hle, Bool.false_eq_true]
    rw [dset_not_mem data _ _ hfresh]

/-- C3 (witness): the three wrapped-import branches instantiated at
concrete inputs (a one-bookmark JSON payload; a well-formed small HTML
file whose parse yields an empty `dl`; the same file with no `dl` element
but one regex link). -/
theorem c3_witness :
    (importJson [("X", Node.url "u" "X" "")] [] =
      (countItems [("X", Node.url "u" "X" "")],
        [] ++ [(freshName (([] : Dict).map Prod.fst) "已导入(JSON)",
          Node.folder none [("X", Node.url "u" "X" "")])]) ∧
      freshName (([] : Dict).map Prod.fst) "已导入(JSON)" ∉ ([] : Dict).map Prod.fst) ∧
    (importHtml 20 "<a <DL>" (some (Dom.elem "dl" [] [])) [] extract0 [] =
      (countItems (finalData (collectAll (domSize (Dom.elem "dl" [] []))
          (Dom.elem "dl" [] []) [])),
        [] ++ [(freshName (([] : Dict).map Prod.fst) "已导入(HTML)",
          Node.folder none (finalData (collectAll (domSize (Dom.elem "dl" [] []))
            (Dom.elem "dl" [] []) [])))]) ∧
      freshName (([] : Dict).map Prod.fst) "已导入(HTML)" ∉ ([] : Dict).map Prod.fst) ∧
    ((importHtml 20 "<a <DL>" none [("u", "n")] extract0 []).2 =
      [] ++ [(freshName (([] : Dict).map Prod.fst) "已导入(HTML)",
        Node.folder none [("未分类导入链接",
          Node.folder none ([("u", "n")].foldl (fun acc pr =>
            let nm := if pyStrip pr.2 = "" then pr.1 else pyStrip pr.2
            dedupInsert acc nm (Node.url pr.1 nm "")) []))])] ∧
      freshName (([] : Dict).map Prod.fst) "已导入(HTML)" ∉ ([] : Dict).map Prod.fst) :=
  ⟨c3_wrap_amended.1 [("X", Node.url "u" "X" "")] [] (by simp),
   c3_wrap_amended.2.1 20 "<a <DL>" (Dom.elem "dl" [] []) [] extract0 []
     (by norm_num) (by norm_num) (by simp) (by rfl) (by rfl),
   c3_wrap_amended.2.2 20 "<a <DL>" [("u", "n")] extract0 []
     (by norm_num) (by norm_num) (by simp) (by rfl) (by rfl) (by simp)⟩

def treeB : Dict := [("B", Node.url "https://e.x/" "B" "")]

/-- Modelled from the spec: the stage-3 "DOM-like tree" the external HTML
library builds for the legacy-HTML document `generateBookmarkHtml treeB`,
with the root list container located — one `dl` whose `<p>` item holds one
`dt` containing the single exported anchor.  (The markup parser is the
external BeautifulSoup library; any tree for this document contains no
heading element, one `dt` item and one anchor with this `href`, which is
all the verdict below depends on.) -/
def domB : Dom :=
  Dom.elem "dl" []
    [Dom.elem "p" []
      [Dom.elem "dt" []
        [Dom.elem "a" [("href", "https://e.x/")] [Dom.txt "B"]]]]

set_option maxRecDepth 40000 in
/-- C6 (code_bug): exporting a tree holding a single root-level bookmark
writes exactly one anchor, yet re-importing the produced document yields
count `0` and an empty wrapped folder: step 3 of the flat-rebuild drops
every link that has no enclosing folder marker (its own comment says to
place such links at the outer level, but the loop `continue`s instead), so
the round-trip multiset `{(B, https://e.x/)}` becomes `{}`. -/
theorem c6_roundtrip_bug :
    (exportHtml treeB).1 = 1 ∧
    pyIn "<DT><A HREF=\"https://e.x/\">B</A>" (generateBookmarkHtml treeB) = true ∧
    importHtml (generateBookmarkHtml treeB).length (generateBookmarkHtml treeB)
        (some domB) [] extract0 [] =
      (0, [("已导入(HTML)", Node.folder none [])]) ∧
    (0 : Nat) ≠ 1 := by
  refine ⟨rfl, rfl, ?_, by norm_num⟩
  rfl

mutual

/-- The Python values handled by `json.loads` / `json.dumps` in this
program: `None`, booleans, integers, strings, lists and string-keyed dicts
(as ordered association structures, matching Python dict insertion order).
Floats are outside this embedding (floating point); note that a `NaN`
inside an otherwise schema-valid tree would in fact break the round-trip
claim, since `nan != nan` in Python. -/
inductive JValue where
  | jnull
  | jbool (b : Bool)
  | jint (n : Int)
  | jstr (s : String)
  | jarr (xs : JList)
  | jobj (xs : JObj)

inductive JList where
  | lnil
  | lcons (v : JValue) (tl : JList)

inductive JObj where
  | onil
  | ocons (k : String) (v : JValue) (tl : JObj)

end

/-- Dict lookup (`key in item` / `item[key]`). -/
def olookup : JObj → String → Option JValue
  | JObj.onil, _ => none
  | JObj.ocons k v tl, key => if k = key then some v else olookup tl key

def oappend : JObj → JObj → JObj
  | JObj.onil, b => b
  | JObj.ocons k v tl, b => JObj.ocons k v (oappend tl b)

theorem olookup_sizeOf : ∀ (fields : JObj) (key : String) (v : JValue),
    olookup fields key = some v → sizeOf v < sizeOf fields
  | JObj.onil, _, _, h => by cases h
  | JObj.ocons k w tl, key, v, h => by
      by_cases hk : k = key
      · simp only [olookup, hk, if_true, Option.some.injEq] at h
        subst h
        simp
        omega
      · simp only [olookup, hk, if_false] at h
        have := olookup_sizeOf tl key v h
        simp
        omega

mutual

/-- `json_utils._simple_validate` — the validation `validate_json_schema`
always runs (the module sets `HAS_JSONSCHEMA = False` and never uses
`BOOKMARK_SCHEMA`): the value must be a dict; each item must be a dict
with a `type` key; `type == "url"` requires `url` and `name` keys;
`type == "folder"` requires a dict-valued `children` key, validated
recursively; any other `type` fails.  No other key is inspected. -/
def validateItems : JObj → Bool
  | JObj.onil => true
  | JObj.ocons _ item tl => validateItem item && validateItems tl
termination_by xs => sizeOf xs

def validateItem : JValue → Bool
  | JValue.jobj fields =>
      match olookup fields "type" with
      | none => false
      | some (JValue.jstr t) =>
          if t = "url" then
            (olookup fields "url").isSome && (olookup fields "name").isSome
          else if t = "folder" then
            match h : olookup fields "children" with
            | some (JValue.jobj ch) => validateItems ch
            | _ => false
          else false
      | some _ => false
  | _ => false
termination_by v => sizeOf v
decreasing_by
  all_goals simp_wf
  have := olookup_sizeOf fields "children" _ h
  simp at this
  omega

end

def simpleValidate : JValue → Bool
  | JValue.jobj xs => validateItems xs
  | _ => false

/-- `json_utils.validate_json_schema(data)` (the validity component of the
returned pair; the message is display text only). -/
def validateJsonSchema (data : JValue) : Bool := simpleValidate data

def jurlItem (u n : String) : JObj :=
  JObj.ocons "type" (JValue.jstr "url")
    (JObj.ocons "url" (JValue.jstr u) (JObj.ocons "name" (JValue.jstr n) JObj.onil))

/-- C7 (counterexample): a document whose URL item carries the undeclared
extra key `extra` — forbidden by the schema's `additionalProperties:
False`, which the claim says is enforced — passes `validate_json_schema`,
because the code always uses `_simple_validate`, which never inspects
unknown keys. -/
theorem c7_counterexample :
    validateJsonSchema (JValue.jobj (JObj.ocons "x"
      (JValue.jobj (oappend (jurlItem "u" "n")
        (JObj.ocons "extra" (JValue.jstr "z") JObj.onil))) JObj.onil)) = true ∧
    ("extra" ∈ (["type", "url", "name", "icon"] : List String)) = False := by
  constructor
  · simp [validateJsonSchema, simpleValidate, validateItems, validateItem,
      oappend, jurlItem, olookup]
  · simp

theorem olookup_oappend : ∀ (a : JObj) (b : JObj) (key : String) (v : JValue),
    olookup a key = some v → olookup (oappend a b) key = some v
  | JObj.onil, _, _, _, h => by cases h
  | JObj.ocons k w tl, b, key, v, h => by
      by_cases hk : k = key
      · simp only [olookup, hk, if_true] at h
        simp only [oappend, olookup, hk, if_true]
        exact h
      · simp only [olookup, hk, if_false] at h
        simp only [oappend, olookup, hk, if_false]
        exact olookup_oappend tl b key v h

/-- C7 (amended): `validate_json_schema` checks only the `type`
discriminator and the required fields; any extra, undeclared properties on
a URL item are accepted (for every list of extra fields appended to a
well-formed URL item, validation still succeeds), even though the
declared-but-unused `BOOKMARK_SCHEMA` says `additionalProperties:
False`. -/
theorem c7_extra_props_accepted (k u n : String) (extras : JObj) :
    validateItem (JValue.jobj (oappend (jurlItem "u" "n") extras)) = true ∧
    validateJsonSchema (JValue.jobj (JObj.ocons k
      (JValue.jobj (oappend (jurlItem u n) extras)) JObj.onil)) = true := by
  have htype : ∀ u2 n2 : String,
      olookup (oappend (jurlItem u2 n2) extras) "type" = some (JValue.jstr "url") :=
    fun u2 n2 => olookup_oappend _ _ _ _ rfl
  have hurl : ∀ u2 n2 : String,
      olookup (oappend (jurlItem u2 n2) extras) "url" = some (JValue.jstr u2) :=
    fun u2 n2 => olookup_oappend _ _ _ _ rfl
  have hname : ∀ u2 n2 : String,
      olookup (oappend (jurlItem u2 n2) extras) "name" = some (JValue.jstr n2) :=
    fun u2 n2 => olookup_oappend _ _ _ _ rfl
  constructor
  · simp [validateItem, htype "u" "n", hurl "u" "n", hname "u" "n"]
  · simp only [validateJsonSchema, simpleValidate, validateItems, Bool.and_eq_true]
    refine ⟨?_, trivial⟩
    simp [validateItem, htype u n, hurl u n, hname u n]

def lbrace : Char := Char.ofNat 123

def rbrace : Char := Char.ofNat 125

def hexDigit (n : Nat) : Char :=
  if n < 10 then digitChar n else Char.ofNat (87 + n)

/-- One character of a JSON string as `json.dumps(..., ensure_ascii=False)`
emits it: escape `"` and `\\`, the named control escapes, `\\u00xx` for the
remaining control characters, everything else verbatim. -/
def escJsonChar (c : Char) : List Char :=
  if c = '"' then ['\\', '"']
  else if c = '\\' then ['\\', '\\']
  else if c.toNat = 8 then ['\\', 'b']
  else if c.toNat = 9 then ['\\', 't']
  else if c.toNat = 10 then ['\\', 'n']
  else if c.toNat = 12 then ['\\', 'f']
  else if c.toNat = 13 then ['\\', 'r']
  else if c.toNat < 32 then
    ['\\', 'u', '0', '0', hexDigit (c.toNat / 16), hexDigit (c.toNat % 16)]
  else [c]

def escJson : List Char → List Char
  | [] => []
  | c :: t => escJsonChar c ++ escJson t

def renderStr (s : List Char) : List Char := '"' :: escJson s ++ ['"']

/-- `str(n)` for a Python int. -/
def renderInt : Int → List Char
  | Int.ofNat m => natDigits m
  | Int.negSucc m => '-' :: natDigits (m + 1)

/-- The item separator of `json.dumps(..., indent=2)`: a newline plus two
spaces per depth level. -/
def nlIndent (d : Nat) : List Char := '\n' :: List.replicate (2 * d) ' '

mutual

/-- `json.dumps(value, ensure_ascii=False, indent=2)` at nesting depth
`d`. -/
def renderV : JValue → Nat → List Char
  | JValue.jnull, _ => "null".data
  | JValue.jbool true, _ => "true".data
  | JValue.jbool false, _ => "false".data
  | JValue.jint n, _ => renderInt n
  | JValue.jstr s, _ => renderStr s.data
  | JValue.jarr JList.lnil, _ => "[]".data
  | JValue.jarr (JList.lcons v tl), d =>
      '[' :: (nlIndent (d + 1) ++ renderV v (d + 1) ++ renderListRest tl (d + 1) ++
        nlIndent d ++ [']'])
  | JValue.jobj JObj.onil, _ => [lbrace, rbrace]
  | JValue.jobj (JObj.ocons k v tl), d =>
      lbrace :: (nlIndent (d + 1) ++ renderStr k.data ++ ':' :: ' ' :: renderV v (d + 1) ++
        renderObjRest tl (d + 1) ++ nlIndent d ++ [rbrace])

def renderListRest : JList → Nat → List Char
  | JList.lnil, _ => []
  | JList.lcons v tl, d => ',' :: (nlIndent d ++ renderV v d ++ renderListRest tl d)

def renderObjRest : JObj → Nat → List Char
  | JObj.onil, _ => []
  | JObj.ocons k v tl, d =>
      ',' :: (nlIndent d ++ renderStr k.data ++ ':' :: ' ' :: renderV v d ++
        renderObjRest tl d)

end

/-- One `"key": value` item as rendered inside an object. -/
def renderKV (k : String) (v : JValue) (d : Nat) : List Char :=
  renderStr k.data ++ ':' :: ' ' :: renderV v d

/-- `json.dumps(data, ensure_ascii=False, indent=2)` as called by
`safe_json_dump`. -/
def dumpsJson (v : JValue) : String := String.mk (renderV v 0)

/-- `safe_json_dump(data)`: serializing one of the embedded values never
raises `TypeError`, so the success flag is always `true` (the error
message is display text only and omitted). -/
def safeJsonDump (v : JValue) : Bool × String := (true, dumpsJson v)

def isWsChar (c : Char) : Bool :=
  c = ' ' || c = '\t' || c = '\n' || c = '\r'

/-- The whitespace skipping of Python's JSON scanner (`' \t\n\r'`). -/
def skipWs : List Char → List Char
  | [] => []
  | c :: t => if isWsChar c then skipWs t else c :: t

def expectLit (lit : List Char) (input : List Char) : Option (List Char) :=
  if lit.isPrefixOf input then some (input.drop lit.length) else none

def parseHex (c : Char) : Option Nat :=
  if c.isDigit then some (c.toNat - 48)
  else if 97 ≤ c.toNat && c.toNat ≤ 102 then some (c.toNat - 87)
  else if 65 ≤ c.toNat && c.toNat ≤ 70 then some (c.toNat - 55)
  else none

/-- The JSON string-body scanner: characters up to the closing quote, with
the backslash escapes `json.loads` accepts.  (`\\u` escapes outside the
basic plane / surrogate pairs are not modelled; `json.dumps` only ever
emits `\\u00xx`.)  Fuel-based; one unit per scanned source character. -/
def parseStrBody : Nat → List Char → Option (List Char × List Char)
  | 0, _ => none
  | _ + 1, [] => none
  | fuel + 1, c :: t =>
      if c = '"' then some ([], t)
      else if c = '\\' then
        match t with
        | [] => none
        | e :: t2 =>
            if e = '"' || e = '\\' || e = '/' then
              (parseStrBody fuel t2).map (fun pr => (e :: pr.1, pr.2))
            else if e = 'b' then
              (parseStrBody fuel t2).map (fun pr => (Char.ofNat 8 :: pr.1, pr.2))
            else if e = 'f' then
              (parseStrBody fuel t2).map (fun pr => (Char.ofNat 12 :: pr.1, pr.2))
            else if e = 'n' then
              (parseStrBody fuel t2).map (fun pr => ('\n' :: pr.1, pr.2))
            else if e = 'r' then
              (parseStrBody fuel t2).map (fun pr => (Char.ofNat 13 :: pr.1, pr.2))
            else if e = 't' then
              (parseStrBody fuel t2).map (fun pr => ('\t' :: pr.1, pr.2))
            else if e = 'u' then
              match t2 with
              | h1 :: h2 :: h3 :: h4 :: t3 =>
                  match parseHex h1, parseHex h2, parseHex h3, parseHex h4 with
                  | some a, some b, some c2, some d2 =>
                      let val := ((a * 16 + b) * 16 + c2) * 16 + d2
                      if 55296 ≤ val && val ≤ 57343 then none
                      else (parseStrBody fuel t3).map
                        (fun pr => (Char.ofNat val :: pr.1, pr.2))
                  | _, _, _, _ => none
              | _ => none
            else none
      else (parseStrBody fuel t).map (fun pr => (c :: pr.1, pr.2))

/-- Maximal decimal-digit run, accumulator style. -/
def parseDigitsAcc (acc : Nat) : List Char → Nat × List Char
  | [] => (acc, [])
  | c :: t =>
      if c.isDigit then parseDigitsAcc (acc * 10 + (c.toNat - 48)) t
      else (acc, c :: t)

/-- Integer literals of the JSON grammar (the only numbers the program's
documents contain; floats are outside the embedding). -/
def parseNum : List Char → Option (JValue × List Char)
  | [] => none
  | c :: t =>
      if c = '-' then
        match t with
        | [] => none
        | c2 :: t2 =>
            if c2.isDigit then
              let pr := parseDigitsAcc (c2.toNat - 48) t2
              some (JValue.jint (-(pr.1 : Int)), pr.2)
            else none
      else if c.isDigit then
        let pr := parseDigitsAcc (c.toNat - 48) t
        some (JValue.jint (pr.1 : Int), pr.2)
      else none

mutual

/-- Recursive-descent `json.loads` value scanner (fuel-based; the
round-trip theorems show `sizeV`-many units suffice). -/
def parseVal : Nat → List Char → Option (JValue × List Char)
  | 0, _ => none
  | fuel + 1, input =>
      match skipWs input with
      | [] => none
      | c :: t =>
          if c = '"' then
            (parseStrBody (t.length + 1) t).map
              (fun pr => (JValue.jstr (String.mk pr.1), pr.2))
          else if c = 't' then
            (expectLit "rue".data t).map (fun r => (JValue.jbool true, r))
          else if c = 'f' then
            (expectLit "alse".data t).map (fun r => (JValue.jbool false, r))
          else if c = 'n' then
            (expectLit "ull".data t).map (fun r => (JValue.jnull, r))
          else if c = '[' then
            match skipWs t with
            | c2 :: r =>
                if c2 = ']' then some (JValue.jarr JList.lnil, r)
                else (parseArrItems fuel t).map (fun pr => (JValue.jarr pr.1, pr.2))
            | [] => none
          else if c = lbrace then
            match skipWs t with
            | c2 :: r =>
                if c2 = rbrace then some (JValue.jobj JObj.onil, r)
                else (parseObjItems fuel t).map (fun pr => (JValue.jobj pr.1, pr.2))
            | [] => none
          else parseNum (c :: t)

def parseArrItems : Nat → List Char → Option (JList × List Char)
  | 0, _ => none
  | fuel + 1, input =>
      match parseVal fuel input with
      | none => none
      | some (v, r) =>
          match skipWs r with
          | ',' :: r2 =>
              (parseArrItems fuel r2).map (fun pr => (JList.lcons v pr.1, pr.2))
          | ']' :: r2 => some (JList.lcons v JList.lnil, r2)
          | _ => none

def parseObjItems : Nat → List Char → Option (JObj × List Char)
  | 0, _ => none
  | fuel + 1, input =>
      match skipWs input with
      | '"' :: t =>
          match parseStrBody (t.length + 1) t with
          | none => none
          | some (k, r) =>
              match skipWs r with
              | ':' :: r2 =>
                  match parseVal fuel r2 with
                  | none => none
                  | some (v, r3) =>
                      match skipWs r3 with
                      | ',' :: r4 =>
                          (parseObjItems fuel r4).map
                            (fun pr => (JObj.ocons (String.mk k) v pr.1, pr.2))
                      | c :: r4 =>
                          if c = rbrace then
                            some (JObj.ocons (String.mk k) v JObj.onil, r4)
                          else none
                      | [] => none
              | _ => none
      | _ => none

end

mutual

def sizeV : JValue → Nat
  | JValue.jarr xs => 1 + sizeL xs
  | JValue.jobj xs => 1 + sizeO xs
  | _ => 1

def sizeL : JList → Nat
  | JList.lnil => 0
  | JList.lcons v tl => 1 + sizeV v + sizeL tl

def sizeO : JObj → Nat
  | JObj.onil => 0
  | JObj.ocons _ v tl => 1 + sizeV v + sizeO tl

end

/-- `json.loads(content)` on the documents this program round-trips: parse
one value, skip trailing whitespace, require the end of the input. -/
def loadsJson (s : String) : Option JValue :=
  match parseVal (s.data.length + 1) s.data with
  | some (v, r) => if skipWs r = [] then some v else none
  | none => none

/-- `safe_json_load(content)`: the success flag and parsed value (the
error message is display text only and omitted; the default value the
caller passes is returned on failure, modelled by `none`). -/
def safeJsonLoad (s : String) : Bool × Option JValue :=
  match loadsJson s with
  | some v => (true, some v)
  | none => (false, none)

/-- The rest of the input cannot extend the token just parsed: it is empty
or starts with a non-digit (in rendered JSON a value is always followed by
`,`, a newline, a closing bracket or the end). -/
def delimOk : List Char → Bool
  | [] => true
  | c :: _ => !c.isDigit

theorem strMk_data (s : String) : String.mk s.data = s := by
  cases s
  rfl

theorem skipWs_all_ws (ws : List Char) (l : List Char)
    (h : ∀ c ∈ ws, isWsChar c = true) : skipWs (ws ++ l) = skipWs l := by
  induction ws with
  | nil => rfl
  | cons c t ih =>
      have hc := h c (by simp)
      simp only [List.cons_append, skipWs, hc, if_true]
      exact ih (fun c2 h2 => h c2 (by simp [h2]))

theorem nlIndent_ws (d : Nat) : ∀ c ∈ nlIndent d, isWsChar c = true := by
  intro c hc
  simp only [nlIndent, List.mem_cons] at hc
  rcases hc with rfl | hc
  · rfl
  · rw [List.eq_of_mem_replicate hc]
    rfl

theorem skipWs_nlIndent (d : Nat) (l : List Char) :
    skipWs (nlIndent d ++ l) = skipWs l :=
  skipWs_all_ws _ _ (nlIndent_ws d)

theorem skipWs_cons_nonws (c : Char) (t : List Char) (h : isWsChar c = false) :
    skipWs (c :: t) = c :: t := by
  simp [skipWs, h]

/-- `parseVal` only looks at its whitespace-normalized input. -/
theorem parseVal_congr (fuel : Nat) (in1 in2 : List Char)
    (h : skipWs in1 = skipWs in2) : parseVal fuel in1 = parseVal fuel in2 := by
  cases fuel with
  | zero => rfl
  | succ f =>
      unfold parseVal
      rw [h]

theorem expectLit_self (lit rest : List Char) :
    expectLit lit (lit ++ rest) = some rest := by
  unfold expectLit
  rw [if_pos, List.drop_left]
  rw [List.isPrefixOf_iff_prefix]
  exact List.prefix_append _ _

theorem digitChar_isDigit (k : Nat) (h : k < 10) : (digitChar k).isDigit = true := by
  interval_cases k <;> decide

theorem natDigits_all_digits (n : Nat) :
    ∀ c ∈ natDigits n, c.isDigit = true := by
  induction n using Nat.strong_induction_on with
  | _ n ih =>
      intro c hc
      by_cases h10 : n < 10
      · have heq : natDigits n = [digitChar n] := by
          match n with
          | 0 => rfl
          | m + 1 =>
              show natDigitsAux (m + 1) (m + 1) = _
              simp [natDigitsAux, h10]
        rw [heq] at hc
        simp only [List.mem_singleton] at hc
        rw [hc]
        exact digitChar_isDigit n h10
      · have hdiv : n / 10 < n := Nat.div_lt_self (by omega) (by omega)
        rw [natDigits_ge n (by omega)] at hc
        rcases List.mem_append.mp hc with hc | hc
        · exact ih _ hdiv c hc
        · simp only [List.mem_singleton] at hc
          rw [hc]
          exact digitChar_isDigit _ (Nat.mod_lt n (by omega))

theorem natDigits_head (n : Nat) :
    ∃ k rest, k < 10 ∧ natDigits n = digitChar k :: rest := by
  induction n using Nat.strong_induction_on with
  | _ n ih =>
      by_cases h10 : n < 10
      · refine ⟨n, [], h10, ?_⟩
        match n with
        | 0 => rfl
        | m + 1 =>
            show natDigitsAux (m + 1) (m + 1) = _
            simp [natDigitsAux, h10]
      · have hdiv : n / 10 < n := Nat.div_lt_self (by omega) (by omega)
        obtain ⟨k, rest, hk, hrest⟩ := ih _ hdiv
        refine ⟨k, rest ++ [digitChar (n % 10)], hk, ?_⟩
        rw [natDigits_ge n (by omega), hrest]
        rfl

theorem parseDigitsAcc_spec (l : List Char) : ∀ (rest : List Char) (acc : Nat),
    (∀ c ∈ l, c.isDigit = true) → delimOk rest = true →
    parseDigitsAcc acc (l ++ rest) = (digitsValFrom acc l, rest) := by
  induction l with
  | nil =>
      intro rest acc _ hrest
      cases rest with
      | nil => rfl
      | cons c t =>
          have hc : c.isDigit = false := by
            simp only [delimOk, Bool.not_eq_true'] at hrest
            exact hrest
          show parseDigitsAcc acc (c :: t) = (digitsValFrom acc [], c :: t)
          rw [show parseDigitsAcc acc (c :: t) =
            if c.isDigit then parseDigitsAcc (acc * 10 + (c.toNat - 48)) t
            else (acc, c :: t) from rfl]
          rw [hc]
          rfl
  | cons c t ih =>
      intro rest acc hl hrest
      have hc := hl c (by simp)
      rw [List.cons_append]
      rw [show parseDigitsAcc acc (c :: (t ++ rest)) =
        if c.isDigit then parseDigitsAcc (acc * 10 + (c.toNat - 48)) (t ++ rest)
        else (acc, c :: (t ++ rest)) from rfl]
      rw [hc, if_pos rfl]
      rw [show digitsValFrom acc (c :: t) =
        digitsValFrom (acc * 10 + (c.toNat - 48)) t from rfl]
      exact ih rest _ (fun c2 h2 => hl c2 (by simp [h2])) hrest

theorem digitChar_ne_dash (k : Nat) (h : k < 10) : digitChar k ≠ '-' := by
  interval_cases k <;> decide

theorem parseNum_render (n : Int) (rest : List Char) (h : delimOk rest = true) :
    parseNum (renderInt n ++ rest) = some (JValue.jint n, rest) := by
  cases n with
  | ofNat m =>
      obtain ⟨k, ds, hk, hds⟩ := natDigits_head m
      have hdig : ∀ c ∈ ds, c.isDigit = true := by
        intro c hc
        exact natDigits_all_digits m c (by rw [hds]; simp [hc])
      rw [show renderInt (Int.ofNat m) = natDigits m from rfl, hds, List.cons_append]
      rw [show parseNum (digitChar k :: (ds ++ rest)) =
        (if digitChar k = '-' then
          match ds ++ rest with
          | [] => none
          | c2 :: t2 =>
              if c2.isDigit then
                let pr := parseDigitsAcc (c2.toNat - 48) t2
                some (JValue.jint (-(pr.1 : Int)), pr.2)
              else none
        else if (digitChar k).isDigit then
          let pr := parseDigitsAcc ((digitChar k).toNat - 48) (ds ++ rest)
          some (JValue.jint (pr.1 : Int), pr.2)
        else none) from rfl]
      rw [if_neg (digitChar_ne_dash k hk), if_pos (digitChar_isDigit k hk)]
      simp only [parseDigitsAcc_spec ds rest _ hdig h]
      have hv2 : digitsValFrom ((digitChar k).toNat - 48) ds = m := by
        have h2 : digitsValFrom 0 (digitChar k :: ds) = m := by
          rw [← hds]
          simpa using natDigits_val m 0
        rw [show digitsValFrom 0 (digitChar k :: ds) =
          digitsValFrom (0 * 10 + ((digitChar k).toNat - 48)) ds from rfl] at h2
        simpa using h2
      rw [hv2]
      rfl
  | negSucc m =>
      obtain ⟨k, ds, hk, hds⟩ := natDigits_head (m + 1)
      have hdig : ∀ c ∈ ds, c.isDigit = true := by
        intro c hc
        exact natDigits_all_digits (m + 1) c (by rw [hds]; simp [hc])
      rw [show renderInt (Int.negSucc m) = '-' :: natDigits (m + 1) from rfl, hds]
      rw [show ('-' :: (digitChar k :: ds)) ++ rest =
        '-' :: (digitChar k :: (ds ++ rest)) from by simp]
      rw [show parseNum ('-' :: (digitChar k :: (ds ++ rest))) =
        (if (digitChar k).isDigit then
          let pr := parseDigitsAcc ((digitChar k).toNat - 48) (ds ++ rest)
          some (JValue.jint (-(pr.1 : Int)), pr.2)
        else none) from rfl]
      rw [if_pos (digitChar_isDigit k hk)]
      simp only [parseDigitsAcc_spec ds rest _ hdig h]
      have hv2 : digitsValFrom ((digitChar k).toNat - 48) ds = m + 1 := by
        have h2 : digitsValFrom 0 (digitChar k :: ds) = m + 1 := by
          rw [← hds]
          simpa using natDigits_val (m + 1) 0
        rw [show digitsValFrom 0 (digitChar k :: ds) =
          digitsValFrom (0 * 10 + ((digitChar k).toNat - 48)) ds from rfl] at h2
        simpa using h2
      rw [hv2]
      have hneg : -((m + 1 : Nat) : Int) = Int.negSucc m := by
        rw [Int.negSucc_eq]
        push_cast
        ring
      rw [hneg]

theorem parseHex_hexDigit (k : Nat) (h : k < 16) : parseHex (hexDigit k) = some k := by
  interval_cases k <;> decide

theorem parseHex_zero : parseHex '0' = some 0 := by decide

theorem parseStrBody_u (f : Nat) (c3 c4 : Char) (a b : Nat) (l : List Char)
    (ha : parseHex c3 = some a) (hb : parseHex c4 = some b)
    (hval : a * 16 + b < 55296) :
    parseStrBody (f + 1) ('\\' :: 'u' :: '0' :: '0' :: c3 :: c4 :: l) =
      (parseStrBody f l).map (fun pr => (Char.ofNat (a * 16 + b) :: pr.1, pr.2)) := by
  simp only [parseStrBody, ha, hb, parseHex_zero]
  norm_num
  rw [if_neg (by decide), if_neg (by decide), if_neg (by decide), if_neg (by decide),
    if_neg (by decide), if_neg (by decide), if_neg (by decide), if_neg (by omega)]

theorem parseStrBody_step (c : Char) (f : Nat) (l : List Char) :
    parseStrBody (f + 1) (escJsonChar c ++ l) =
      (parseStrBody f l).map (fun pr => (c :: pr.1, pr.2)) := by
  by_cases h1 : c = '"'
  · subst h1
    rfl
  by_cases h2 : c = '\\'
  · subst h2
    rfl
  by_cases h8 : c.toNat = 8
  · have hc : c = Char.ofNat 8 := by rw [← Char.ofNat_toNat c, h8]
    subst hc
    rfl
  by_cases h9 : c.toNat = 9
  · have hc : c = Char.ofNat 9 := by rw [← Char.ofNat_toNat c, h9]
    subst hc
    rfl
  by_cases h10 : c.toNat = 10
  · have hc : c = Char.ofNat 10 := by rw [← Char.ofNat_toNat c, h10]
    subst hc
    rfl
  by_cases h12 : c.toNat = 12
  · have hc : c = Char.ofNat 12 := by rw [← Char.ofNat_toNat c, h12]
    subst hc
    rfl
  by_cases h13 : c.toNat = 13
  · have hc : c = Char.ofNat 13 := by rw [← Char.ofNat_toNat c, h13]
    subst hc
    rfl
  by_cases h32 : c.toNat < 32
  · have hesc : escJsonChar c =
        ['\\', 'u', '0', '0', hexDigit (c.toNat / 16), hexDigit (c.toNat % 16)] := by
      unfold escJsonChar
      rw [if_neg h1, if_neg h2, if_neg h8, if_neg h9, if_neg h10, if_neg h12,
        if_neg h13, if_pos h32]
    rw [hesc]
    show parseStrBody (f + 1)
      ('\\' :: 'u' :: '0' :: '0' :: hexDigit (c.toNat / 16) :: hexDigit (c.toNat % 16) :: l) = _
    rw [parseStrBody_u f _ _ (c.toNat / 16) (c.toNat % 16) l
      (parseHex_hexDigit _ (by omega)) (parseHex_hexDigit _ (by omega)) (by omega)]
    rw [show c.toNat / 16 * 16 + c.toNat % 16 = c.toNat from by omega]
    rw [Char.ofNat_toNat]
  · have hesc : escJsonChar c = [c] := by
      unfold escJsonChar
      rw [if_neg h1, if_neg h2, if_neg h8, if_neg h9, if_neg h10, if_neg h12,
        if_neg h13, if_neg h32]
    rw [hesc]
    show parseStrBody (f + 1) (c :: l) = _
    simp only [parseStrBody]
    rw [if_neg h1, if_neg h2]

theorem escJsonChar_len (c : Char) : 1 ≤ (escJsonChar c).length := by
  unfold escJsonChar
  repeat' split
  all_goals simp

theorem escJson_len (s : List Char) : s.length ≤ (escJson s).length := by
  induction s with
  | nil => simp [escJson]
  | cons c t ih =>
      have := escJsonChar_len c
      simp only [escJson, List.length_append, List.length_cons]
      omega

theorem parseStrBody_render (s : List Char) : ∀ (f : Nat) (rest : List Char),
    s.length + 1 ≤ f →
    parseStrBody f (escJson s ++ '"' :: rest) = some (s, rest) := by
  induction s with
  | nil =>
      intro f rest hf
      match f, hf with
      | f + 1, _ => rfl
  | cons c t ih =>
      intro f rest hf
      match f, hf with
      | f + 1, hf =>
          show parseStrBody (f + 1) ((escJsonChar c ++ escJson t) ++ '"' :: rest) = _
          rw [List.append_assoc, parseStrBody_step,
            ih f rest (by simp only [List.length_cons] at hf; omega)]
          rfl

/-- The branch dispatch of `parseVal` once the whitespace-normalized input
is known to start with `c`; factored out so the round-trip proof can treat
one head character at a time. -/
def parseValHead (fuel : Nat) (c : Char) (t : List Char) : Option (JValue × List Char) :=
  if c = '"' then
    (parseStrBody (t.length + 1) t).map
      (fun pr => (JValue.jstr (String.mk pr.1), pr.2))
  else if c = 't' then
    (expectLit "rue".data t).map (fun r => (JValue.jbool true, r))
  else if c = 'f' then
    (expectLit "alse".data t).map (fun r => (JValue.jbool false, r))
  else if c = 'n' then
    (expectLit "ull".data t).map (fun r => (JValue.jnull, r))
  else if c = '[' then
    match skipWs t with
    | c2 :: r =>
        if c2 = ']' then some (JValue.jarr JList.lnil, r)
        else (parseArrItems fuel t).map (fun pr => (JValue.jarr pr.1, pr.2))
    | [] => none
  else if c = lbrace then
    match skipWs t with
    | c2 :: r =>
        if c2 = rbrace then some (JValue.jobj JObj.onil, r)
        else (parseObjItems fuel t).map (fun pr => (JValue.jobj pr.1, pr.2))
    | [] => none
  else parseNum (c :: t)

theorem parseVal_cons (fuel : Nat) (input : List Char) (c : Char) (t : List Char)
    (h : skipWs input = c :: t) : parseVal (fuel + 1) input = parseValHead fuel c t := by
  simp only [parseVal]
  rw [h]
  rfl

theorem sizeV_pos (v : JValue) : 1 ≤ sizeV v := by
  cases v <;> simp [sizeV]

theorem digitChar_parse_props (k : Nat) (h : k < 10) :
    isWsChar (digitChar k) = false ∧ digitChar k ≠ '"' ∧ digitChar k ≠ 't' ∧
    digitChar k ≠ 'f' ∧ digitChar k ≠ 'n' ∧ digitChar k ≠ '[' ∧
    digitChar k ≠ lbrace ∧ digitChar k ≠ ']' ∧ digitChar k ≠ rbrace := by
  interval_cases k <;> exact ⟨rfl, by decide, by decide, by decide, by decide,
    by decide, by decide, by decide, by decide⟩

/-- Every rendered value starts with a visible character that is not a
closing bracket or closing brace. -/
theorem renderV_head (v : JValue) (d : Nat) :
    ∃ c t2, renderV v d = c :: t2 ∧ isWsChar c = false ∧ c ≠ ']' ∧ c ≠ rbrace := by
  cases v with
  | jnull => exact ⟨'n', ['u', 'l', 'l'], rfl, rfl, by decide, by decide⟩
  | jbool b =>
      cases b with
      | true => exact ⟨'t', ['r', 'u', 'e'], rfl, rfl, by decide, by decide⟩
      | false => exact ⟨'f', ['a', 'l', 's', 'e'], rfl, rfl, by decide, by decide⟩
  | jint n =>
      cases n with
      | ofNat m =>
          obtain ⟨k, ds, hk, hds⟩ := natDigits_head m
          obtain ⟨hw, _, _, _, _, _, _, hrb, hrb2⟩ := digitChar_parse_props k hk
          exact ⟨digitChar k, ds,
            by rw [show renderV (JValue.jint (Int.ofNat m)) d = natDigits m from rfl, hds],
            hw, hrb, hrb2⟩
      | negSucc m =>
          exact ⟨'-', natDigits (m + 1), rfl, rfl, by decide, by decide⟩
  | jstr s => exact ⟨'"', escJson s.data ++ ['"'], rfl, rfl, by decide, by decide⟩
  | jarr xs =>
      cases xs with
      | lnil => exact ⟨'[', [']'], rfl, rfl, by decide, by decide⟩
      | lcons v2 tl => exact ⟨'[', _, rfl, rfl, by decide, by decide⟩
  | jobj xs =>
      cases xs with
      | onil => exact ⟨lbrace, [rbrace], rfl, rfl, by decide, by decide⟩
      | ocons k v2 tl => exact ⟨lbrace, _, rfl, rfl, by decide, by decide⟩

mutual

theorem sizeV_le_render (v : JValue) (d : Nat) : sizeV v ≤ (renderV v d).length := by
  cases v with
  | jnull => simp [sizeV, renderV]
  | jbool b => cases b <;> simp [sizeV, renderV]
  | jint n =>
      cases n with
      | ofNat m =>
          obtain ⟨k, ds, _, hds⟩ := natDigits_head m
          simp only [sizeV, renderV, renderInt, hds, List.length_cons]
          omega
      | negSucc m => simp [sizeV, renderV, renderInt]
  | jstr s => simp [sizeV, renderV, renderStr]
  | jarr xs =>
      cases xs with
      | lnil => simp [sizeV, sizeL, renderV]
      | lcons v2 tl =>
          have h1 := sizeV_le_render v2 (d + 1)
          have h2 := sizeL_le_render tl (d + 1)
          simp only [sizeV, sizeL, renderV, List.length_cons, List.length_append,
            nlIndent, List.length_replicate]
          omega
  | jobj xs =>
      cases xs with
      | onil => simp [sizeV, sizeO, renderV]
      | ocons k v2 tl =>
          have h1 := sizeV_le_render v2 (d + 1)
          have h2 := sizeO_le_render tl (d + 1)
          simp only [sizeV, sizeO, renderV, List.length_cons, List.length_append,
            nlIndent, List.length_replicate]
          omega

theorem sizeL_le_render (l : JList) (d : Nat) : sizeL l ≤ (renderListRest l d).length := by
  cases l with
  | lnil => simp [sizeL, renderListRest]
  | lcons v tl =>
      have h1 := sizeV_le_render v d
      have h2 := sizeL_le_render tl d
      simp only [sizeL, renderListRest, List.length_cons, List.length_append,
        nlIndent, List.length_replicate]
      omega

theorem sizeO_le_render (o : JObj) (d : Nat) : sizeO o ≤ (renderObjRest o d).length := by
  cases o with
  | onil => simp [sizeO, renderObjRest]
  | ocons k v tl =>
      have h1 := sizeV_le_render v d
      have h2 := sizeO_le_render tl d
      simp only [sizeO, renderObjRest, List.length_cons, List.length_append,
        nlIndent, List.length_replicate]
      omega

end

theorem parseArrItems_step (fuel : Nat) (input : List Char) (v : JValue) (r : List Char)
    (h : parseVal fuel input = some (v, r)) :
    parseArrItems (fuel + 1) input =
      (match skipWs r with
       | ',' :: r2 => (parseArrItems fuel r2).map (fun pr => (JList.lcons v pr.1, pr.2))
       | ']' :: r2 => some (JList.lcons v JList.lnil, r2)
       | _ => none) := by
  simp only [parseArrItems]
  rw [h]

theorem parseObjItems_step (fuel : Nat) (input : List Char) (t kk r : List Char)
    (r2 : List Char) (v : JValue) (r3 : List Char)
    (hA : skipWs input = '"' :: t)
    (hB : parseStrBody (t.length + 1) t = some (kk, r))
    (hC : skipWs r = ':' :: r2)
    (hD : parseVal fuel r2 = some (v, r3)) :
    parseObjItems (fuel + 1) input =
      (match skipWs r3 with
       | ',' :: r4 =>
           (parseObjItems fuel r4).map
             (fun pr => (JObj.ocons (String.mk kk) v pr.1, pr.2))
       | c :: r4 =>
           if c = rbrace then some (JObj.ocons (String.mk kk) v JObj.onil, r4)
           else none
       | [] => none) := by
  simp only [parseObjItems]
  rw [hA]
  simp only []
  rw [hB]
  simp only []
  rw [hC]
  simp only []
  rw [hD]

/-- The heart of the C4 round trip: with enough fuel, the three mutual
scanners of `json.loads` read back exactly what the three mutual printers
of `json.dumps(..., indent=2)` emitted, leaving any delimiter-headed rest
untouched. -/
theorem parse_render_master : ∀ fuel : Nat,
    (∀ v d rest, sizeV v ≤ fuel → delimOk rest = true →
      parseVal fuel (renderV v d ++ rest) = some (v, rest)) ∧
    (∀ v tl d rest, 1 + sizeV v + sizeL tl ≤ fuel → delimOk rest = true →
      parseArrItems fuel
        (nlIndent (d + 1) ++ (renderV v (d + 1) ++ (renderListRest tl (d + 1) ++
          (nlIndent d ++ ']' :: rest)))) = some (JList.lcons v tl, rest)) ∧
    (∀ (k : String) v tl d rest, 1 + sizeV v + sizeO tl ≤ fuel → delimOk rest = true →
      parseObjItems fuel
        (nlIndent (d + 1) ++ (renderStr k.data ++ (':' :: ' ' ::
          (renderV v (d + 1) ++ (renderObjRest tl (d + 1) ++
            (nlIndent d ++ rbrace :: rest)))))) = some (JObj.ocons k v tl, rest)) := by
  intro fuel
  induction fuel with
  | zero =>
      refine ⟨?_, ?_, ?_⟩
      · intro v d rest hs _
        exact absurd hs (by have := sizeV_pos v; omega)
      · intro v tl d rest hs _
        exact absurd hs (by have := sizeV_pos v; omega)
      · intro k v tl d rest hs _
        exact absurd hs (by have := sizeV_pos v; omega)
  | succ fuel ih =>
      obtain ⟨ih1, ih2, ih3⟩ := ih
      refine ⟨?_, ?_, ?_⟩
      · intro v d rest hs hrest
        cases v with
        | jnull =>
            have hin : renderV JValue.jnull d ++ rest = 'n' :: ("ull".data ++ rest) := by
              rw [show renderV JValue.jnull d = 'n' :: "ull".data from rfl]
              simp
            rw [hin, parseVal_cons fuel _ _ _ (by exact skipWs_cons_nonws _ _ rfl)]
            unfold parseValHead
            rw [if_neg (by decide), if_neg (by decide), if_neg (by decide), if_pos rfl]
            rw [expectLit_self]
            rfl
        | jbool b =>
            cases b with
            | true =>
                have hin : renderV (JValue.jbool true) d ++ rest =
                    't' :: ("rue".data ++ rest) := by
                  rw [show renderV (JValue.jbool true) d = 't' :: "rue".data from rfl]
                  simp
                rw [hin, parseVal_cons fuel _ _ _ (by exact skipWs_cons_nonws _ _ rfl)]
                unfold parseValHead
                rw [if_neg (by decide), if_pos rfl]
                rw [expectLit_self]
                rfl
            | false =>
                have hin : renderV (JValue.jbool false) d ++ rest =
                    'f' :: ("alse".data ++ rest) := by
                  rw [show renderV (JValue.jbool false) d = 'f' :: "alse".data from rfl]
                  simp
                rw [hin, parseVal_cons fuel _ _ _ (by exact skipWs_cons_nonws _ _ rfl)]
                unfold parseValHead
                rw [if_neg (by decide), if_neg (by decide), if_pos rfl]
                rw [expectLit_self]
                rfl
        | jint n =>
            cases n with
            | ofNat m =>
                obtain ⟨k, ds, hk, hds⟩ := natDigits_head m
                obtain ⟨hw, hq, ht, hf, hn, hb, hlb, _, _⟩ := digitChar_parse_props k hk
                have hin : renderV (JValue.jint (Int.ofNat m)) d ++ rest =
                    digitChar k :: (ds ++ rest) := by
                  rw [show renderV (JValue.jint (Int.ofNat m)) d = natDigits m from rfl,
                    hds]
                  simp
                rw [hin, parseVal_cons fuel _ _ _ (skipWs_cons_nonws _ _ hw)]
                unfold parseValHead
                rw [if_neg hq, if_neg ht, if_neg hf, if_neg hn, if_neg hb, if_neg hlb]
                rw [show digitChar k :: (ds ++ rest) = (digitChar k :: ds) ++ rest from
                  rfl, ← hds]
                exact parseNum_render (Int.ofNat m) rest hrest
            | negSucc m =>
                have hin : renderV (JValue.jint (Int.negSucc m)) d ++ rest =
                    '-' :: (natDigits (m + 1) ++ rest) := by
                  rw [show renderV (JValue.jint (Int.negSucc m)) d =
                    '-' :: natDigits (m + 1) from rfl]
                  simp
                rw [hin, parseVal_cons fuel _ _ _ (by exact skipWs_cons_nonws _ _ rfl)]
                unfold parseValHead
                rw [if_neg (by decide), if_neg (by decide), if_neg (by decide),
                  if_neg (by decide), if_neg (by decide), if_neg (by decide)]
                exact parseNum_render (Int.negSucc m) rest hrest
        | jstr s =>
            have hin : renderV (JValue.jstr s) d ++ rest =
                '"' :: (escJson s.data ++ '"' :: rest) := by
              rw [show renderV (JValue.jstr s) d =
                '"' :: (escJson s.data ++ ['"']) from rfl]
              simp
            rw [hin, parseVal_cons fuel _ _ _ (by exact skipWs_cons_nonws _ _ rfl)]
            unfold parseValHead
            rw [if_pos rfl]
            rw [parseStrBody_render s.data _ rest (by
              have := escJson_len s.data
              simp only [List.length_append, List.length_cons]
              omega)]
            simp [strMk_data]
        | jarr xs =>
            cases xs with
            | lnil => rfl
            | lcons v tl =>
                simp only [sizeV, sizeL] at hs
                have hin : renderV (JValue.jarr (JList.lcons v tl)) d ++ rest =
                    '[' :: (nlIndent (d + 1) ++ (renderV v (d + 1) ++
                      (renderListRest tl (d + 1) ++ (nlIndent d ++ ']' :: rest)))) := by
                  rw [show renderV (JValue.jarr (JList.lcons v tl)) d =
                    '[' :: (nlIndent (d + 1) ++ renderV v (d + 1) ++
                      renderListRest tl (d + 1) ++ nlIndent d ++ [']']) from rfl]
                  simp
                obtain ⟨c2, t2, hv2, hw2, hne2, _⟩ := renderV_head v (d + 1)
                have hsw : skipWs (nlIndent (d + 1) ++ (renderV v (d + 1) ++
                    (renderListRest tl (d + 1) ++ (nlIndent d ++ ']' :: rest)))) =
                    c2 :: (t2 ++ (renderListRest tl (d + 1) ++
                      (nlIndent d ++ ']' :: rest))) := by
                  rw [skipWs_nlIndent, hv2, List.cons_append,
                    skipWs_cons_nonws _ _ hw2]
                rw [hin, parseVal_cons fuel _ _ _ (by exact skipWs_cons_nonws _ _ rfl)]
                unfold parseValHead
                rw [if_neg (by decide), if_neg (by decide), if_neg (by decide),
                  if_neg (by decide), if_pos rfl]
                rw [hsw]
                simp only []
                rw [if_neg hne2]
                rw [ih2 v tl d rest (by omega) hrest]
                rfl
        | jobj xs =>
            cases xs with
            | onil => rfl
            | ocons k v tl =>
                simp only [sizeV, sizeO] at hs
                have hin : renderV (JValue.jobj (JObj.ocons k v tl)) d ++ rest =
                    lbrace :: (nlIndent (d + 1) ++ (renderStr k.data ++ (':' :: ' ' ::
                      (renderV v (d + 1) ++ (renderObjRest tl (d + 1) ++
                        (nlIndent d ++ rbrace :: rest)))))) := by
                  rw [show renderV (JValue.jobj (JObj.ocons k v tl)) d =
                    lbrace :: (nlIndent (d + 1) ++ renderStr k.data ++ ':' :: ' ' ::
                      renderV v (d + 1) ++ renderObjRest tl (d + 1) ++ nlIndent d ++
                      [rbrace]) from rfl]
                  simp
                have hsA : skipWs (nlIndent (d + 1) ++ (renderStr k.data ++ (':' :: ' ' ::
                    (renderV v (d + 1) ++ (renderObjRest tl (d + 1) ++
                      (nlIndent d ++ rbrace :: rest)))))) =
                    '"' :: (escJson k.data ++ '"' :: (':' :: ' ' ::
                      (renderV v (d + 1) ++ (renderObjRest tl (d + 1) ++
                        (nlIndent d ++ rbrace :: rest))))) := by
                  rw [skipWs_nlIndent]
                  rw [show renderStr k.data ++ (':' :: ' ' ::
                    (renderV v (d + 1) ++ (renderObjRest tl (d + 1) ++
                      (nlIndent d ++ rbrace :: rest)))) =
                    '"' :: (escJson k.data ++ '"' :: (':' :: ' ' ::
                      (renderV v (d + 1) ++ (renderObjRest tl (d + 1) ++
                        (nlIndent d ++ rbrace :: rest))))) from by simp [renderStr]]
                  exact skipWs_cons_nonws _ _ rfl
                rw [hin, parseVal_cons fuel _ _ _ (by exact skipWs_cons_nonws _ _ rfl)]
                unfold parseValHead
                rw [if_neg (by decide), if_neg (by decide), if_neg (by decide),
                  if_neg (by decide), if_neg (by decide), if_pos rfl]
                rw [hsA]
                simp only []
                rw [if_neg (by decide)]
                rw [ih3 k v tl d rest (by omega) hrest]
                rfl
      · intro v tl d rest hs hrest
        have hpv : parseVal fuel (nlIndent (d + 1) ++ (renderV v (d + 1) ++
            (renderListRest tl (d + 1) ++ (nlIndent d ++ ']' :: rest)))) =
            some (v, renderListRest tl (d + 1) ++ (nlIndent d ++ ']' :: rest)) := by
          rw [parseVal_congr fuel _
            (renderV v (d + 1) ++ (renderListRest tl (d + 1) ++
              (nlIndent d ++ ']' :: rest)))
            (skipWs_nlIndent (d + 1) _)]
          exact ih1 v (d + 1) _ (by have := sizeV_pos v; omega)
            (by cases tl <;> rfl)
        rw [parseArrItems_step fuel _ v _ hpv]
        cases tl with
        | lnil =>
            have hsw : skipWs (renderListRest JList.lnil (d + 1) ++
                (nlIndent d ++ ']' :: rest)) = ']' :: rest := by
              show skipWs (nlIndent d ++ ']' :: rest) = _
              rw [skipWs_nlIndent]
              rfl
            rw [hsw]
            rfl
        | lcons v2 tl2 =>
            simp only [sizeL] at hs
            have hsw : skipWs (renderListRest (JList.lcons v2 tl2) (d + 1) ++
                (nlIndent d ++ ']' :: rest)) =
                ',' :: ((nlIndent (d + 1) ++ renderV v2 (d + 1) ++
                  renderListRest tl2 (d + 1)) ++ (nlIndent d ++ ']' :: rest)) := rfl
            rw [hsw]
            simp only []
            rw [show (nlIndent (d + 1) ++ renderV v2 (d + 1) ++
                renderListRest tl2 (d + 1)) ++ (nlIndent d ++ ']' :: rest) =
              nlIndent (d + 1) ++ (renderV v2 (d + 1) ++ (renderListRest tl2 (d + 1) ++
                (nlIndent d ++ ']' :: rest))) from by simp]
            rw [ih2 v2 tl2 d rest (by have := sizeV_pos v; omega) hrest]
            rfl
      · intro k v tl d rest hs hrest
        have hsA : skipWs (nlIndent (d + 1) ++ (renderStr k.data ++ (':' :: ' ' ::
            (renderV v (d + 1) ++ (renderObjRest tl (d + 1) ++
              (nlIndent d ++ rbrace :: rest)))))) =
            '"' :: (escJson k.data ++ '"' :: (':' :: ' ' ::
              (renderV v (d + 1) ++ (renderObjRest tl (d + 1) ++
                (nlIndent d ++ rbrace :: rest))))) := by
          rw [skipWs_nlIndent]
          rw [show renderStr k.data ++ (':' :: ' ' ::
            (renderV v (d + 1) ++ (renderObjRest tl (d + 1) ++
              (nlIndent d ++ rbrace :: rest)))) =
            '"' :: (escJson k.data ++ '"' :: (':' :: ' ' ::
              (renderV v (d + 1) ++ (renderObjRest tl (d + 1) ++
                (nlIndent d ++ rbrace :: rest))))) from by simp [renderStr]]
          exact skipWs_cons_nonws _ _ rfl
        have hB : parseStrBody ((escJson k.data ++ '"' :: (':' :: ' ' ::
            (renderV v (d + 1) ++ (renderObjRest tl (d + 1) ++
              (nlIndent d ++ rbrace :: rest))))).length + 1)
            (escJson k.data ++ '"' :: (':' :: ' ' ::
              (renderV v (d + 1) ++ (renderObjRest tl (d + 1) ++
                (nlIndent d ++ rbrace :: rest))))) =
            some (k.data, ':' :: ' ' ::
              (renderV v (d + 1) ++ (renderObjRest tl (d + 1) ++
                (nlIndent d ++ rbrace :: rest)))) := by
          apply parseStrBody_render
          have := escJson_len k.data
          simp only [List.length_append, List.length_cons]
          omega
        have hD : parseVal fuel (' ' ::
            (renderV v (d + 1) ++ (renderObjRest tl (d + 1) ++
              (nlIndent d ++ rbrace :: rest)))) =
            some (v, renderObjRest tl (d + 1) ++ (nlIndent d ++ rbrace :: rest)) := by
          rw [parseVal_congr fuel _
            (renderV v (d + 1) ++ (renderObjRest tl (d + 1) ++
              (nlIndent d ++ rbrace :: rest))) (by rfl)]
          exact ih1 v (d + 1) _ (by have := sizeV_pos v; omega)
            (by cases tl <;> rfl)
        rw [parseObjItems_step fuel _ _ _ _ _ _ _ hsA hB rfl hD]
        rw [strMk_data]
        cases tl with
        | onil =>
            have hsw : skipWs (renderObjRest JObj.onil (d + 1) ++
                (nlIndent d ++ rbrace :: rest)) = rbrace :: rest := by
              show skipWs (nlIndent d ++ rbrace :: rest) = _
              rw [skipWs_nlIndent]
              exact skipWs_cons_nonws _ _ rfl
            rw [hsw]
            rfl
        | ocons k2 v2 tl2 =>
            simp only [sizeO] at hs
            have hsw : skipWs (renderObjRest (JObj.ocons k2 v2 tl2) (d + 1) ++
                (nlIndent d ++ rbrace :: rest)) =
                ',' :: ((nlIndent (d + 1) ++ renderStr k2.data ++ ':' :: ' ' ::
                  renderV v2 (d + 1) ++ renderObjRest tl2 (d + 1)) ++
                  (nlIndent d ++ rbrace :: rest)) := rfl
            rw [hsw]
            simp only []
            rw [show (nlIndent (d + 1) ++ renderStr k2.data ++ ':' :: ' ' ::
                renderV v2 (d + 1) ++ renderObjRest tl2 (d + 1)) ++
                (nlIndent d ++ rbrace :: rest) =
              nlIndent (d + 1) ++ (renderStr k2.data ++ (':' :: ' ' ::
                (renderV v2 (d + 1) ++ (renderObjRest tl2 (d + 1) ++
                  (nlIndent d ++ rbrace :: rest))))) from by simp]
            rw [ih3 k2 v2 tl2 d rest (by have := sizeV_pos v; omega) hrest]
            rfl

/-- With the fuel `loadsJson` supplies (input length + 1), parsing the
dump of any value returns exactly that value. -/
theorem loads_dumps (v : JValue) : loadsJson (dumpsJson v) = some v := by
  unfold loadsJson dumpsJson
  rw [show (String.mk (renderV v 0)).data = renderV v 0 from rfl]
  have h1 := (parse_render_master ((renderV v 0).length + 1)).1 v 0 []
    (by have := sizeV_le_render v 0; omega) rfl
  rw [List.append_nil] at h1
  rw [h1]
  rfl

/-- C4: for every tree that passes `validate_json_schema`, encoding with
`safe_json_dump` succeeds, decoding the result with `safe_json_load`
succeeds, and the decoded value equals the original tree. -/
theorem c4_json_roundtrip (T : JValue) ( hvalid : validateJsonSchema T = true) :
    (safeJsonDump T).1 = true ∧ safeJsonLoad (safeJsonDump T).2 = (true, some T) := by
  refine ⟨rfl, ?_⟩
  show safeJsonLoad (dumpsJson T) = (true, some T)
  unfold safeJsonLoad
  rw [loads_dumps T]

/-- C4 witness: the round trip at a concrete valid tree holding one URL
item under the root. -/
theorem c4_witness :
    validateJsonSchema (JValue.jobj (JObj.ocons "Site"
      (JValue.jobj (jurlItem "https://e.x/" "Site")) JObj.onil)) = true ∧
    ((safeJsonDump (JValue.jobj (JObj.ocons "Site"
        (JValue.jobj (jurlItem "https://e.x/" "Site")) JObj.onil))).1 = true ∧
      safeJsonLoad (safeJsonDump (JValue.jobj (JObj.ocons "Site"
        (JValue.jobj (jurlItem "https://e.x/" "Site")) JObj.onil))).2 =
        (true, some (JValue.jobj (JObj.ocons "Site"
          (JValue.jobj (jurlItem "https://e.x/" "Site")) JObj.onil)))) := by
  have hv : validateJsonSchema (JValue.jobj (JObj.ocons "Site"
      (JValue.jobj (jurlItem "https://e.x/" "Site")) JObj.onil)) = true := by
    simp [validateJsonSchema, simpleValidate, validateItems, validateItem,
      jurlItem, olookup]
  exact ⟨hv, c4_json_roundtrip _ hv⟩

end UrlNav
